import Mathlib

/-!
Shallow embedding of the `map-watch` package (`src/index.js`): a `WatchMap`
class extending the native JavaScript `Map` with per-key watcher callbacks.

Modelling choices, each tied to the source:

* Keys and values are type parameters `K`, `V`; only keys are compared in the
  source (`Map#get`/`has`/`delete` use key identity; values are never
  compared), so only `DecidableEq K` is required.
* The native `Map` and the two private maps (`'previous'` and `'watchers'`
  slots of the per-instance private `Map`) are association lists with
  JavaScript `Map` semantics: `set` overwrites in place or appends, `get`
  returns the first (and, by construction, only) entry, `delete` removes it.
* `undefined` — the result of `get` on an absent key, and the absent shadow
  value — is `Option.none`.  Storing the literal value `undefined` itself is
  outside the model (stored values are `V`).
* Watcher callbacks can call back into the map, so their bodies are a deep
  embedding `Cmd`: sequences of `set`, `delete`, cancellation calls and reads
  (`probe`, the callback calling `this.get`).  A callback is a function from
  its JavaScript arguments `(value, oldValue, unwatch?)` to a `Cmd`.
* `_randomString` produces watcher identifiers; the source relies on them
  being unique, which we model with a fresh counter `nextId`.
* A thrown `TypeError` (invoking a non-callable callback, which the source
  never guards against) aborts the whole call stack; we model it with a
  terminal `err` flag that short-circuits all further execution, plus a
  `typeError` log event.
* Recursion through reentrant callbacks is bounded by fuel, consumed exactly
  at each callback invocation; running out of fuel sets `err` (with no
  `typeError` event), so a finished run with `err = false` is exactly a
  JavaScript execution.  All recursion is structural, so runs evaluate by
  `decide`.
* `options.context` only changes the `this` binding of the callback
  (`callback.call(context, ...)` versus `callback(...)` in `_fire` and in
  `watch`); both branches pass the same arguments, and the embedding has no
  `this`, so the context field is omitted.
* The instrumentation `log` records every callback invocation (watcher id,
  `value` and `oldValue` arguments), every `probe` result, and thrown type
  errors.  It is write-only and exists solely to state theorems.
-/

namespace MapWatch

/-- Log events: callback invocations with their two value arguments, results
of a reentrant `this.get(key)` performed by a callback, and thrown
`TypeError`s. -/
inductive Event (K V : Type) where
  | invoke (id : Nat) (value : V) (oldValue : Option V)
  | observed (k : K) (value : Option V)
  | typeError
  deriving DecidableEq

/-- The body of a watcher callback, deep-embedded: what a callback may do to
the map while it runs.  `cancel` models calling an unwatch closure (which is
determined by the key and watcher id it captured), `probe` models reading
`this.get(k)`, `throwTE` models an expression that throws a `TypeError`
(in particular `once` invoking a non-callable wrapped callback). -/
inductive Cmd (K V : Type) where
  | ret
  | set (k : K) (v : V) (next : Cmd K V)
  | del (k : K) (next : Cmd K V)
  | cancel (k : K) (id : Nat) (next : Cmd K V)
  | probe (k : K) (next : Cmd K V)
  | throwTE
  deriving DecidableEq

/-- Sequencing of command bodies; a throw aborts the continuation. -/
def Cmd.andThen {K V : Type} : Cmd K V → Cmd K V → Cmd K V
  | .ret, c => c
  | .set k v n, c => .set k v (n.andThen c)
  | .del k n, c => .del k (n.andThen c)
  | .cancel k i n, c => .cancel k i (n.andThen c)
  | .probe k n, c => .probe k (n.andThen c)
  | .throwTE, _ => .throwTE

/-- A watcher callback: from the arguments JavaScript passes
(`value`, `oldValue`, and — only on the immediate `always` call in `watch` —
the `unwatch` token) to its body. -/
def Behavior (K V : Type) : Type := V → Option V → Option (K × Nat) → Cmd K V

/-- One record of the per-key watcher list: `{callback, id, context}` in
`watch` (`context` omitted, see the header note).  `callback` is `none` when
the registered value is not callable — the source never validates it. -/
structure Watcher (K V : Type) where
  id : Nat
  callback : Option (Behavior K V)

/-- Association-list `get` with JavaScript `Map` key semantics. -/
def alGet {K : Type} [DecidableEq K] {A : Type} : List (K × A) → K → Option A
  | [], _ => none
  | (k1, a) :: t, k => if k = k1 then some a else alGet t k

/-- Association-list `set`: overwrite the first entry for the key in place,
else append a new entry (JavaScript `Map#set`). -/
def alSet {K : Type} [DecidableEq K] {A : Type} : List (K × A) → K → A → List (K × A)
  | [], k, a => [(k, a)]
  | (k1, b) :: t, k, a => if k = k1 then (k, a) :: t else (k1, b) :: alSet t k a

/-- Association-list `delete`: remove the entries for the key
(JavaScript `Map#delete`). -/
def alDelete {K : Type} [DecidableEq K] {A : Type} : List (K × A) → K → List (K × A)
  | [], _ => []
  | (k1, b) :: t, k => if k = k1 then alDelete t k else (k1, b) :: alDelete t k

/-- Association-list `has` (JavaScript `Map#has`). -/
def alHas {K : Type} [DecidableEq K] {A : Type} (l : List (K × A)) (k : K) : Bool :=
  (alGet l k).isSome

/-- The whole state of one `WatchMap` instance: the base `Map` contents, the
private `'previous'` map (key to the value `this.get(key)` returned just
before the key's last `set`), the private `'watchers'` map, the fresh-id
source standing in for `_randomString`, plus instrumentation (`log`) and the
thrown/aborted flag (`err`). -/
structure WatchMap (K V : Type) where
  base : List (K × V)
  prev : List (K × Option V)
  watchers : List (K × List (Watcher K V))
  nextId : Nat
  log : List (Event K V)
  err : Bool

/-- The freshly constructed map: `new WatchMap()`. -/
def WatchMap.empty (K V : Type) : WatchMap K V :=
  { base := [], prev := [], watchers := [], nextId := 0, log := [], err := false }

variable {K V : Type} [DecidableEq K]

/-- The watcher list for a key: `_getPrivateMap(this, 'watchers').get(key)`,
with an absent entry read as the empty list. -/
def reg (s : WatchMap K V) (k : K) : List (Watcher K V) :=
  (alGet s.watchers k).getD []

/-- What a callback receives as the shadow previous value:
`_getPrivateMap(this, 'previous').get(key)` — `undefined` both when the entry
is absent and when the stored value was `undefined`. -/
def prevShadow (s : WatchMap K V) (k : K) : Option V :=
  (alGet s.prev k).getD none

/-- State after a thrown `TypeError`: the `err` flag is raised and the event
is logged; every subsequent step short-circuits. -/
def mkErr (s : WatchMap K V) : WatchMap K V :=
  { s with err := true, log := s.log ++ [.typeError] }

/-- The body of the unwatch closure returned by `watch`: if the watchers map
has the key, replace its list by one filtered on `id` inequality. -/
def cancelOp (s : WatchMap K V) (k : K) (i : Nat) : WatchMap K V :=
  if alHas s.watchers k then
    { s with watchers := alSet s.watchers k ((reg s k).filter (fun w => w.id ≠ i)) }
  else s

/-- The `delete(key)` method: drop the key's `'previous'` entry if present,
then `super.delete(key)`, returning whether the key existed.  No watcher is
consulted or fired. -/
def deleteOp (s : WatchMap K V) (k : K) : WatchMap K V × Bool :=
  ({ s with prev := alDelete s.prev k, base := alDelete s.base k }, alHas s.base k)

/-- A callback performing `this.get(k)`: the read goes to the base store
(the class does not override `get`) and its result is logged. -/
def probeOp (s : WatchMap K V) (k : K) : WatchMap K V :=
  { s with log := s.log ++ [.observed k (alGet s.base k)] }

/-- One firing pass over a snapshot of the watcher array
(`watchers.get(key).forEach(...)` in `_fire`): each record in turn is invoked
with `(value, oldValue)` — its body running through `call`, the
one-level-lower interpreter — and a non-callable callback throws.  The
snapshot is fixed even though the registry may change under it: the source's
unwatch replaces the array by a filtered copy and `forEach` does not visit
elements appended after it starts, so the original array contents are
exactly what fires. -/
def fireL (call : WatchMap K V → Cmd K V → WatchMap K V) :
    WatchMap K V → List (Watcher K V) → V → Option V → WatchMap K V
  | s, [], _, _ => s
  | s, w :: rest, v, old =>
    if s.err then s
    else match w.callback with
      | none => fireL call (mkErr s) rest v old
      | some b =>
        fireL call (call { s with log := s.log ++ [.invoke w.id v old] } (b v old none))
          rest v old

/-- The `set(key, value)` method body given an interpreter for callback
bodies: store `this.get(key)` into the `'previous'` map, run `_fire` (which
reads `oldValue = this.get(key)` once and iterates the current watcher array),
then — only if nothing threw — commit with `super.set(key, value)`. -/
def doSetL (call : WatchMap K V → Cmd K V → WatchMap K V)
    (s : WatchMap K V) (k : K) (v : V) : WatchMap K V :=
  if s.err then s
  else
    let s1 : WatchMap K V := { s with prev := alSet s.prev k (alGet s.base k) }
    let s2 := fireL call s1 (reg s1 k) v (alGet s1.base k)
    if s2.err then s2 else { s2 with base := alSet s2.base k v }

/-- Interpreter for one callback body at one reentrancy level: `call` runs the
bodies of callbacks fired one level deeper. -/
def runCmdL (call : WatchMap K V → Cmd K V → WatchMap K V) :
    WatchMap K V → Cmd K V → WatchMap K V
  | s, c =>
    if s.err then s
    else match c with
      | .ret => s
      | .set k v next => runCmdL call (doSetL call s k v) next
      | .del k next => runCmdL call (deleteOp s k).1 next
      | .cancel k i next => runCmdL call (cancelOp s k i) next
      | .probe k next => runCmdL call (probeOp s k) next
      | .throwTE => mkErr s

/-- The fuel-indexed interpreter: level `n + 1` runs a body whose fired
callbacks run at level `n`; exhausted fuel aborts (raises `err` with no
`typeError` event, so finished runs with `err = false` are untruncated). -/
def callN : Nat → WatchMap K V → Cmd K V → WatchMap K V
  | 0, s, _ => { s with err := true }
  | n + 1, s, c => runCmdL (callN n) s c

/-- The public `set(key, value)` at a given fuel. -/
def setOp (fuel : Nat) (s : WatchMap K V) (k : K) (v : V) : WatchMap K V :=
  doSetL (callN fuel) s k v

/-- The public `watch(key, callback, options)`: append a fresh-id record to
the key's watcher array, build the unwatch token, and if `options.always` and
`this.has(key)`, immediately invoke the callback with
`(this.get(key), previous.get(key), unwatch)` — a non-callable callback
throws right there.  Returns the new state and the unwatch token. -/
def watchOp (fuel : Nat) (s : WatchMap K V) (k : K)
    (cb : Option (Behavior K V)) (alw : Bool) : WatchMap K V × (K × Nat) :=
  let cur := reg s k
  let i := s.nextId
  let s1 : WatchMap K V :=
    { s with watchers := alSet s.watchers k (cur ++ [⟨i, cb⟩]), nextId := i + 1 }
  let s2 :=
    if alw then
      match alGet s1.base k with
      | some v =>
        match cb with
        | some b =>
          callN fuel { s1 with log := s1.log ++ [.invoke i v (prevShadow s1 k)] }
            (b v (prevShadow s1 k) (some (k, i)))
        | none => mkErr s1
      | none => s1
    else s1
  (s2, (k, i))

/-- The wrapper `once` registers through `watch`: run the wrapped callback
with `(value, oldValue)` and then call `(unwatch || _unwatch)()`, which in
every reachable invocation is the unwatch closure of this very registration
(token `(k, i)`): on the immediate `always` call `_unwatch` is that closure,
and on every `_fire` call the captured `unwatch` variable already holds it.
A non-callable wrapped callback makes the wrapper throw before cancelling. -/
def onceWrapper (k : K) (i : Nat) (cb : Option (V → Option V → Cmd K V)) :
    Behavior K V :=
  fun v ov _ =>
    match cb with
    | some f => (f v ov).andThen (.cancel k i .ret)
    | none => .throwTE

/-- The public `once(key, callback, options)`: `watch` with the wrapper as
callback.  The wrapper closes over the id `watch` is about to assign
(`s.nextId`), which is how the mutable `unwatch` variable of the source
behaves. -/
def onceOp (fuel : Nat) (s : WatchMap K V) (k : K)
    (cb : Option (V → Option V → Cmd K V)) (alw : Bool) :
    WatchMap K V × (K × Nat) :=
  watchOp fuel s k (some (onceWrapper k s.nextId cb)) alw

/-- The public `countWatchers(key)`:
`(watchers.get(key) || []).length`. -/
def countWatchers (s : WatchMap K V) (k : K) : Nat :=
  (reg s k).length

/-- A top-level operation performed by client code between which no callback
is running. -/
inductive Op (K V : Type) where
  | set (k : K) (v : V)
  | del (k : K)
  | watch (k : K) (cb : Option (Behavior K V)) (alw : Bool)
  | once (k : K) (cb : Option (V → Option V → Cmd K V)) (alw : Bool)
  | cancel (k : K) (i : Nat)

/-- Run one top-level operation (results other than the state discarded). -/
def runOp (fuel : Nat) (s : WatchMap K V) : Op K V → WatchMap K V
  | .set k v => setOp fuel s k v
  | .del k => (deleteOp s k).1
  | .watch k cb alw => (watchOp fuel s k cb alw).1
  | .once k cb alw => (onceOp fuel s k cb alw).1
  | .cancel k i => cancelOp s k i

/-- Run a list of top-level operations; an uncaught throw aborts the rest. -/
def runOps (fuel : Nat) (s : WatchMap K V) : List (Op K V) → WatchMap K V
  | [] => s
  | op :: rest => runOps fuel (if s.err then s else runOp fuel s op) rest

/-- The invocation events of a log, as `(watcher id, value, oldValue)`
triples. -/
def invokesOf : List (Event K V) → List (Nat × V × Option V)
  | [] => []
  | .invoke i v o :: t => (i, v, o) :: invokesOf t
  | _ :: t => invokesOf t

/-- The argument pairs of the invocations of one watcher id. -/
def invokesOfId (i : Nat) (l : List (Event K V)) : List (V × Option V) :=
  (invokesOf l).filterMap (fun e => if e.1 = i then some e.2 else none)

/-- How many times a watcher id was invoked. -/
def invCount (i : Nat) (l : List (Event K V)) : Nat :=
  (invokesOf l).countP (fun e => e.1 = i)

/-- A command body is calm when it never calls back into `set` or `delete`:
it may cancel watchers, read the map, finish, or throw. -/
def Cmd.calm {K V : Type} : Cmd K V → Bool
  | .ret => true
  | .set _ _ _ => false
  | .del _ _ => false
  | .cancel _ _ n => n.calm
  | .probe _ n => n.calm
  | .throwTE => true

/-- A command body is benign when it is calm and never throws. -/
def Cmd.benign {K V : Type} : Cmd K V → Bool
  | .ret => true
  | .cancel _ _ n => n.benign
  | .probe _ n => n.benign
  | _ => false

/-- A command body is inert when it only reads the map or finishes. -/
def Cmd.inert {K V : Type} : Cmd K V → Bool
  | .ret => true
  | .probe _ n => n.inert
  | _ => false

/-- A callback all of whose bodies are calm. -/
def BCalm (b : Behavior K V) : Prop := ∀ v ov tok, (b v ov tok).calm = true

/-- A callback all of whose bodies are benign. -/
def BBenign (b : Behavior K V) : Prop := ∀ v ov tok, (b v ov tok).benign = true

/-- A callback all of whose bodies are inert. -/
def BInert (b : Behavior K V) : Prop := ∀ v ov tok, (b v ov tok).inert = true

/-- The hypotheses `fireL` needs of the lower-level interpreter, satisfied by
`callN (m + 1)`: a benign command body adds no invocation event, cannot
throw, and leaves the base store, shadow store and id counter alone. -/
def CallBenignOK (call : WatchMap K V → Cmd K V → WatchMap K V) : Prop :=
  ∀ (s : WatchMap K V) (c : Cmd K V), c.benign = true → s.err = false →
    invokesOf (call s c).log = invokesOf s.log ∧ (call s c).err = false ∧
    (call s c).base = s.base ∧ (call s c).prev = s.prev ∧
    (call s c).nextId = s.nextId

/-- The watcher id `i` is retired: no registered record carries it and the
fresh-id source is already past it, so no future registration can reuse it.
This is the state an unwatch call leaves behind. -/
def idFree (s : WatchMap K V) (i : Nat) : Prop :=
  (∀ j w, w ∈ reg s j → w.id ≠ i) ∧ i < s.nextId

/-- A lower-level interpreter that respects retirement. -/
def CallFreeOK (i : Nat) (call : WatchMap K V → Cmd K V → WatchMap K V) : Prop :=
  ∀ (s : WatchMap K V) (c : Cmd K V), idFree s i →
    idFree (call s c) i ∧ invCount i (call s c).log = invCount i s.log

/-- A command body that never writes the key `k0` (it may read it, and may
write other keys). -/
def Cmd.avoids (k0 : K) : Cmd K V → Bool
  | .ret => true
  | .set k _ n => !(k = k0 : Bool) && n.avoids k0
  | .del k n => !(k = k0 : Bool) && n.avoids k0
  | .cancel _ _ n => n.avoids k0
  | .probe _ n => n.avoids k0
  | .throwTE => true

/-- A callback none of whose bodies writes the key `k0`. -/
def BAvoids (k0 : K) (b : Behavior K V) : Prop :=
  ∀ v ov tok, (b v ov tok).avoids k0 = true

/-- Every callable callback registered anywhere in the map avoids writing
`k0`. -/
def StateAvoids (s : WatchMap K V) (k0 : K) : Prop :=
  ∀ j w b, w ∈ reg s j → w.callback = some b → BAvoids k0 b

/-- The invariant carried through a firing pass for key `k0`: the base store
still binds `k0` to its pre-update value `X`, no callback that can run writes
`k0`, and every logged read of `k0` either predates the pass or observed
`X`. -/
def ProbeInv (k0 : K) (X : Option V) (base0 : List (Event K V))
    (t : WatchMap K V) : Prop :=
  alGet t.base k0 = X ∧ StateAvoids t k0 ∧
  ∀ x, Event.observed k0 x ∈ t.log → Event.observed k0 x ∈ base0 ∨ x = X

/-- A lower-level interpreter that preserves `ProbeInv` on bodies avoiding
`k0`. -/
def CallAvoidOK (k0 : K) (X : Option V) (base0 : List (Event K V))
    (call : WatchMap K V → Cmd K V → WatchMap K V) : Prop :=
  ∀ (t : WatchMap K V) (c : Cmd K V), c.avoids k0 = true →
    ProbeInv k0 X base0 t → ProbeInv k0 X base0 (call t c)

/-- Every callable callback registered anywhere in the map is calm (never
calls back into `set` or `delete`). -/
def StateCalm (s : WatchMap K V) : Prop :=
  ∀ j w b, w ∈ reg s j → w.callback = some b → BCalm b

/-- No registered record carries the id. -/
def noRec (s : WatchMap K V) (i : Nat) : Prop :=
  ∀ j w, w ∈ reg s j → w.id ≠ i

/-- The step invariant of the at-most-once theorem, for the tracked one-shot
registration: id `i`, key `k`, wrapper callback `W`.  Either the run has
aborted with the invocation bound intact, or: all callable callbacks are
calm, `i` is below the id counter, any record carrying `i` sits on `k` with
`W` as callback and is unique — and `i` has either never been invoked, or
been invoked at most once and is no longer registered. -/
def C4Inv (k : K) (i : Nat) (W : Behavior K V) (s : WatchMap K V) : Prop :=
  (s.err = true ∧ invCount i s.log ≤ 1) ∨
  (StateCalm s ∧ i < s.nextId ∧
   (∀ j w, w ∈ reg s j → w.id = i → j = k ∧ w.callback = some W) ∧
   List.countP (fun w => w.id = i) (reg s k) ≤ 1 ∧
   (invCount i s.log = 0 ∨ (invCount i s.log ≤ 1 ∧ noRec s i)))

/-- The pass-local version of `C4Inv`: additionally bounds how often the
tracked id still occurs in the not-yet-fired remainder of the snapshot. -/
def C4Pass (k : K) (i : Nat) (W : Behavior K V) (L : List (Watcher K V))
    (s : WatchMap K V) : Prop :=
  (s.err = true ∧ invCount i s.log ≤ 1) ∨
  (StateCalm s ∧ i < s.nextId ∧
   (∀ j w, w ∈ reg s j → w.id = i → j = k ∧ w.callback = some W) ∧
   ((invCount i s.log = 0 ∧
     List.countP (fun w => w.id = i) (reg s k) ≤ 1 ∧
     List.countP (fun w => w.id = i) L ≤ 1) ∨
    (invCount i s.log ≤ 1 ∧
     List.countP (fun w => w.id = i) L = 0 ∧ noRec s i)))

/-- A top-level operation whose registrations are calm (`watch`/`once`
callbacks that never call back into `set`/`delete`). -/
def CalmOp : Op K V → Prop
  | .watch _ cb _ => ∀ b, cb = some b → BCalm b
  | .once _ cb _ => ∀ f, cb = some f → ∀ v ov, (f v ov).calm = true
  | _ => True

/-- A callback that does nothing (its invocations are still logged). -/
def retB : Behavior Nat Int := fun _ _ _ => Cmd.ret

/-- A one-shot callback that does nothing. -/
def retC : Int → Option Int → Cmd Nat Int := fun _ _ => Cmd.ret

/-- A callback that reads `this.get(0)`. -/
def probeB : Behavior Nat Int := fun _ _ _ => Cmd.probe 0 Cmd.ret

/-- A callback that reentrantly calls `set(0, 2)` when it sees value 1. -/
def reentB : Behavior Nat Int := fun v _ _ =>
  if v = 1 then Cmd.set 0 2 Cmd.ret else Cmd.ret

/-- `new WatchMap()`, then `watch(0, cb)`, then `set(0, 2)`. -/
def c2state : WatchMap Nat Int :=
  runOps 5 (WatchMap.empty Nat Int) [.watch 0 (some retB) false, .set 0 2]

/-- A map holding `0 ↦ 10` with one watcher on key 0 that reads key 0. -/
def probeState : WatchMap Nat Int :=
  { base := [(0, 10)], prev := [], watchers := [(0, [⟨0, some probeB⟩])],
    nextId := 1, log := [], err := false }

/-- A map holding `0 ↦ 2` with one inert watcher (id 0) on key 0. -/
def oneWatcherState : WatchMap Nat Int :=
  { base := [(0, 2)], prev := [], watchers := [(0, [⟨0, some retB⟩])],
    nextId := 1, log := [], err := false }

/-- A map holding `0 ↦ 1`, no watchers — the key is already set. -/
def c8state : WatchMap Nat Int :=
  { base := [(0, 1)], prev := [], watchers := [], nextId := 0, log := [],
    err := false }

/-- A map holding `0 ↦ 4` whose shadow previous value for key 0 is 3. -/
def c7state : WatchMap Nat Int :=
  { base := [(0, 4)], prev := [(0, some 3)], watchers := [], nextId := 0,
    log := [], err := false }

theorem Cmd.calm_of_benign {K V : Type} : ∀ {c : Cmd K V}, c.benign = true → c.calm = true
  | .ret, _ => rfl
  | .cancel _ _ n, h => Cmd.calm_of_benign (c := n) h
  | .probe _ n, h => Cmd.calm_of_benign (c := n) h

theorem Cmd.benign_of_inert {K V : Type} : ∀ {c : Cmd K V}, c.inert = true → c.benign = true
  | .ret, _ => rfl
  | .probe _ n, h => Cmd.benign_of_inert (c := n) h

theorem BCalm.of_benign {b : Behavior K V} (h : BBenign b) : BCalm b :=
  fun v ov tok => Cmd.calm_of_benign (h v ov tok)

theorem BBenign.of_inert {b : Behavior K V} (h : BInert b) : BBenign b :=
  fun v ov tok => Cmd.benign_of_inert (h v ov tok)

/-! ### Association-list lemmas -/

theorem alGet_alSet_self {A : Type} (l : List (K × A)) (k : K) (a : A) :
    alGet (alSet l k a) k = some a := by
  induction l with
  | nil => simp [alSet, alGet]
  | cons hd t ih =>
    by_cases h : k = hd.1
    · simp [alSet, alGet, h]
    · simpa [alSet, alGet, h] using ih

theorem alGet_alSet_of_ne {A : Type} (l : List (K × A)) (k j : K) (a : A)
    (h : j ≠ k) : alGet (alSet l k a) j = alGet l j := by
  induction l with
  | nil => simp [alSet, alGet, h]
  | cons hd t ih =>
    by_cases h2 : k = hd.1
    · subst h2; simp [alSet, alGet, h]
    · by_cases h3 : j = hd.1
      · simp [alSet, alGet, h2, h3]
      · simpa [alSet, alGet, h2, h3] using ih

theorem alGet_alDelete_self {A : Type} (l : List (K × A)) (k : K) :
    alGet (alDelete l k) k = none := by
  induction l with
  | nil => simp [alDelete, alGet]
  | cons hd t ih =>
    by_cases h : k = hd.1
    · simpa [alDelete, h] using ih
    · simpa [alDelete, alGet, h] using ih

theorem alGet_alDelete_of_ne {A : Type} (l : List (K × A)) (k j : K)
    (h : j ≠ k) : alGet (alDelete l k) j = alGet l j := by
  induction l with
  | nil => simp [alDelete]
  | cons hd t ih =>
    obtain ⟨k1, b⟩ := hd
    by_cases h2 : k = k1
    · subst h2
      rw [alDelete, if_pos rfl, ih]
      simp [alGet, h]
    · by_cases h3 : j = k1
      · simp [alDelete, alGet, h2, h3]
      · simpa [alDelete, alGet, h2, h3] using ih

/-! ### Small-step effect lemmas -/

theorem invokesOf_append (l1 l2 : List (Event K V)) :
    invokesOf (l1 ++ l2) = invokesOf l1 ++ invokesOf l2 := by
  induction l1 with
  | nil => rfl
  | cons e t ih => cases e <;> simp [invokesOf, ih]

theorem cancelOp_log (s : WatchMap K V) (k : K) (i : Nat) :
    (cancelOp s k i).log = s.log := by
  unfold cancelOp; split <;> rfl

theorem cancelOp_base (s : WatchMap K V) (k : K) (i : Nat) :
    (cancelOp s k i).base = s.base := by
  unfold cancelOp; split <;> rfl

theorem cancelOp_prev (s : WatchMap K V) (k : K) (i : Nat) :
    (cancelOp s k i).prev = s.prev := by
  unfold cancelOp; split <;> rfl

theorem cancelOp_nextId (s : WatchMap K V) (k : K) (i : Nat) :
    (cancelOp s k i).nextId = s.nextId := by
  unfold cancelOp; split <;> rfl

theorem cancelOp_err (s : WatchMap K V) (k : K) (i : Nat) :
    (cancelOp s k i).err = s.err := by
  unfold cancelOp; split <;> rfl

theorem reg_cancelOp (s : WatchMap K V) (k : K) (i : Nat) (j : K) :
    reg (cancelOp s k i) j =
      if j = k then (reg s k).filter (fun w => w.id ≠ i) else reg s j := by
  unfold cancelOp
  by_cases hh : alHas s.watchers k
  · rw [if_pos hh]
    by_cases hj : j = k
    · subst hj; simp [reg, alGet_alSet_self]
    · simp [reg, hj, alGet_alSet_of_ne _ _ _ _ hj]
  · rw [if_neg hh]
    unfold alHas at hh
    have hk : alGet s.watchers k = none := by
      cases hv : alGet s.watchers k with
      | none => rfl
      | some l => rw [hv] at hh; simp at hh
    by_cases hj : j = k
    · subst hj; simp [reg, hk]
    · simp [hj]

theorem probeOp_invokes (s : WatchMap K V) (k : K) :
    invokesOf (probeOp s k).log = invokesOf s.log := by
  simp [probeOp, invokesOf_append, invokesOf]

theorem mkErr_invokes (s : WatchMap K V) :
    invokesOf (mkErr s).log = invokesOf s.log := by
  simp [mkErr, invokesOf_append, invokesOf]

/-- The effects of running one calm command body, for any lower-level
interpreter: invocation events, the id counter, the base store and the shadow
store are untouched, and the watcher registry only loses records. -/
theorem calm_run (call : WatchMap K V → Cmd K V → WatchMap K V) :
    ∀ (c : Cmd K V) (s : WatchMap K V), c.calm = true →
    invokesOf (runCmdL call s c).log = invokesOf s.log ∧
    (runCmdL call s c).nextId = s.nextId ∧
    (runCmdL call s c).base = s.base ∧
    (runCmdL call s c).prev = s.prev ∧
    ∀ j w, w ∈ reg (runCmdL call s c) j → w ∈ reg s j := by
  intro c
  induction c with
  | ret => intro s _; simp [runCmdL]
  | set k v next ih => intro s h; simp [Cmd.calm] at h
  | del k next ih => intro s h; simp [Cmd.calm] at h
  | cancel k i next ih =>
    intro s h
    show _ ∧ _
    rw [runCmdL]
    by_cases he : s.err = true
    · rw [if_pos he]
      exact ⟨rfl, rfl, rfl, rfl, fun j w hw => hw⟩
    · rw [if_neg he]
      obtain ⟨h1, h2, h3, h4, h5⟩ := ih (cancelOp s k i) h
      refine ⟨by rw [h1, cancelOp_log], by rw [h2, cancelOp_nextId],
        by rw [h3, cancelOp_base], by rw [h4, cancelOp_prev], ?_⟩
      intro j w hw
      have := h5 j w hw
      rw [reg_cancelOp] at this
      by_cases hj : j = k
      · rw [if_pos hj] at this
        subst hj
        exact List.mem_of_mem_filter this
      · rwa [if_neg hj] at this
  | probe k next ih =>
    intro s h
    show _ ∧ _
    rw [runCmdL]
    by_cases he : s.err = true
    · rw [if_pos he]
      exact ⟨rfl, rfl, rfl, rfl, fun j w hw => hw⟩
    · rw [if_neg he]
      obtain ⟨h1, h2, h3, h4, h5⟩ := ih (probeOp s k) h
      refine ⟨by rw [h1, probeOp_invokes], by rw [h2]; rfl, by rw [h3]; rfl,
        by rw [h4]; rfl, ?_⟩
      intro j w hw
      exact h5 j w hw
  | throwTE =>
    intro s _
    rw [runCmdL]
    by_cases he : s.err = true
    · rw [if_pos he]
      exact ⟨rfl, rfl, rfl, rfl, fun j w hw => hw⟩
    · rw [if_neg he]
      exact ⟨mkErr_invokes s, rfl, rfl, rfl, fun j w hw => hw⟩

/-- The fuel-indexed version of `calm_run`; exhausted fuel only raises the
abort flag. -/
theorem calm_callN (fuel : Nat) (c : Cmd K V) (s : WatchMap K V)
    (h : c.calm = true) :
    invokesOf (callN fuel s c).log = invokesOf s.log ∧
    (callN fuel s c).nextId = s.nextId ∧
    (callN fuel s c).base = s.base ∧
    (callN fuel s c).prev = s.prev ∧
    ∀ j w, w ∈ reg (callN fuel s c) j → w ∈ reg s j := by
  cases fuel with
  | zero => exact ⟨rfl, rfl, rfl, rfl, fun j w hw => hw⟩
  | succ n => exact calm_run (callN n) c s h

/-- Running one benign command body never changes the thrown flag. -/
theorem benign_run (call : WatchMap K V → Cmd K V → WatchMap K V) :
    ∀ (c : Cmd K V) (s : WatchMap K V), c.benign = true →
    (runCmdL call s c).err = s.err := by
  intro c
  induction c with
  | ret => intro s _; rw [runCmdL]; split <;> rfl
  | set k v next ih => intro s h; simp [Cmd.benign] at h
  | del k next ih => intro s h; simp [Cmd.benign] at h
  | cancel k i next ih =>
    intro s h
    rw [runCmdL]
    by_cases he : s.err = true
    · rw [if_pos he]
    · rw [if_neg he, ih (cancelOp s k i) h, cancelOp_err]
  | probe k next ih =>
    intro s h
    rw [runCmdL]
    by_cases he : s.err = true
    · rw [if_pos he]
    · rw [if_neg he, ih (probeOp s k) h]; rfl
  | throwTE => intro s h; simp [Cmd.benign] at h

/-- Running one inert command body changes neither the watcher registry nor
the thrown flag. -/
theorem inert_run (call : WatchMap K V → Cmd K V → WatchMap K V) :
    ∀ (c : Cmd K V) (s : WatchMap K V), c.inert = true →
    (runCmdL call s c).watchers = s.watchers := by
  intro c
  induction c with
  | ret => intro s _; rw [runCmdL]; split <;> rfl
  | set k v next ih => intro s h; simp [Cmd.inert] at h
  | del k next ih => intro s h; simp [Cmd.inert] at h
  | cancel k i next ih => intro s h; simp [Cmd.inert] at h
  | probe k next ih =>
    intro s h
    rw [runCmdL]
    by_cases he : s.err = true
    · rw [if_pos he]
    · rw [if_neg he, ih (probeOp s k) h]; rfl
  | throwTE => intro s h; simp [Cmd.inert] at h

theorem callN_benignOK (m : Nat) : CallBenignOK (callN (K := K) (V := V) (m + 1)) := by
  intro s c hb he
  have hc := calm_run (callN m) c s (Cmd.calm_of_benign hb)
  have herr := benign_run (callN m) c s hb
  rw [callN]
  exact ⟨hc.1, by rw [herr, he], hc.2.2.1, hc.2.2.2.1, hc.2.1⟩

/-- One firing pass over a snapshot whose callbacks are all callable and
benign: every record fires exactly once, in order, with the passed arguments;
nothing throws and the stores are untouched. -/
theorem fireL_benign (call : WatchMap K V → Cmd K V → WatchMap K V)
    (Hcall : CallBenignOK call) :
    ∀ (L : List (Watcher K V)) (s : WatchMap K V) (v : V) (old : Option V),
    (∀ w ∈ L, ∃ b, w.callback = some b ∧ BBenign b) → s.err = false →
    (fireL call s L v old).err = false ∧
    invokesOf (fireL call s L v old).log =
      invokesOf s.log ++ L.map (fun w => (w.id, v, old)) ∧
    (fireL call s L v old).base = s.base ∧
    (fireL call s L v old).prev = s.prev ∧
    (fireL call s L v old).nextId = s.nextId := by
  intro L
  induction L with
  | nil => intro s v old _ he; simp [fireL, he]
  | cons w rest ih =>
    intro s v old hL he
    obtain ⟨b, hb, hbb⟩ := hL w (List.mem_cons_self w rest)
    rw [fireL, if_neg (by rw [he]; simp), hb]
    set s1 : WatchMap K V := { s with log := s.log ++ [.invoke w.id v old] } with hs1
    have hbody := Hcall s1 (b v old none) (hbb v old none) he
    obtain ⟨e1, e2, e3, e4, e5⟩ := hbody
    have hrest := ih (call s1 (b v old none)) v old
      (fun x hx => hL x (List.mem_cons_of_mem w hx)) e2
    obtain ⟨f1, f2, f3, f4, f5⟩ := hrest
    refine ⟨f1, ?_, by rw [f3, e3], by rw [f4, e4], by rw [f5, e5]⟩
    rw [f2, e1, hs1]
    simp [invokesOf_append, invokesOf]

/-- One firing pass whose callbacks are furthermore inert leaves the watcher
registry unchanged. -/
theorem fireL_inert (call : WatchMap K V → Cmd K V → WatchMap K V)
    (Hcall : ∀ (s : WatchMap K V) (c : Cmd K V), c.inert = true →
      (call s c).watchers = s.watchers ∧ (call s c).err = s.err) :
    ∀ (L : List (Watcher K V)) (s : WatchMap K V) (v : V) (old : Option V),
    (∀ w ∈ L, ∃ b, w.callback = some b ∧ BInert b) → s.err = false →
    (fireL call s L v old).watchers = s.watchers := by
  intro L
  induction L with
  | nil => intro s v old _ _; rfl
  | cons w rest ih =>
    intro s v old hL he
    obtain ⟨b, hb, hbb⟩ := hL w (List.mem_cons_self w rest)
    rw [fireL, if_neg (by rw [he]; simp), hb]
    set s1 : WatchMap K V := { s with log := s.log ++ [.invoke w.id v old] } with hs1
    have hbody := Hcall s1 (b v old none) (hbb v old none)
    have hrest := ih (call s1 (b v old none)) v old
      (fun x hx => hL x (List.mem_cons_of_mem w hx)) (by rw [hbody.2]; exact he)
    rw [hrest, hbody.1]

theorem callN_inertOK (m : Nat) :
    ∀ (s : WatchMap K V) (c : Cmd K V), c.inert = true →
    (callN (m + 1) s c).watchers = s.watchers ∧
    (callN (m + 1) s c).err = s.err := by
  intro s c hi
  rw [callN]
  exact ⟨inert_run (callN m) c s hi,
    benign_run (callN m) c s (Cmd.benign_of_inert hi)⟩

/-- The firing behaviour of `set(key, value)` when every watcher registered
on the key is callable and benign: each fires exactly once, in registration
order, with the new value and the pre-update current value; nothing throws,
and the new value is committed afterwards (only at this key). -/
theorem setOp_invokes (m : Nat) (s : WatchMap K V) (k : K) (v : V)
    (he : s.err = false)
    (hw : ∀ w ∈ reg s k, ∃ b, w.callback = some b ∧ BBenign b) :
    (setOp (m + 1) s k v).err = false ∧
    invokesOf (setOp (m + 1) s k v).log =
      invokesOf s.log ++ (reg s k).map (fun w => (w.id, v, alGet s.base k)) ∧
    alGet (setOp (m + 1) s k v).base k = some v ∧
    (∀ j, j ≠ k → alGet (setOp (m + 1) s k v).base j = alGet s.base j) ∧
    (setOp (m + 1) s k v).nextId = s.nextId := by
  rw [setOp, doSetL, if_neg (by rw [he]; simp)]
  set s1 : WatchMap K V := { s with prev := alSet s.prev k (alGet s.base k) } with hs1
  have hreg : reg s1 k = reg s k := rfl
  have hbase : s1.base = s.base := rfl
  have hfl := fireL_benign (callN m.succ) (callN_benignOK m) (reg s1 k) s1 v
    (alGet s1.base k) (by rw [hreg]; exact hw) he
  obtain ⟨f1, f2, f3, f4, f5⟩ := hfl
  rw [if_neg (by rw [f1]; simp)]
  refine ⟨f1, ?_, ?_, ?_, f5⟩
  · rw [f2, hreg, hbase]
  · show alGet (alSet _ k v) k = some v
    exact alGet_alSet_self _ k v
  · intro j hj
    show alGet (alSet _ k v) j = _
    rw [alGet_alSet_of_ne _ _ _ _ hj, f3, hbase]

/-- A `set` whose key has only callable inert watchers leaves the watcher
registry unchanged. -/
theorem setOp_watchers_inert (m : Nat) (s : WatchMap K V) (k : K) (v : V)
    (he : s.err = false)
    (hw : ∀ w ∈ reg s k, ∃ b, w.callback = some b ∧ BInert b) :
    (setOp (m + 1) s k v).watchers = s.watchers := by
  rw [setOp, doSetL, if_neg (by rw [he]; simp)]
  set s1 : WatchMap K V := { s with prev := alSet s.prev k (alGet s.base k) } with hs1
  have hfl := fireL_inert (callN m.succ) (callN_inertOK m) (reg s1 k) s1 v
    (alGet s1.base k) hw he
  have hbenign : ∀ w ∈ reg s1 k, ∃ b, w.callback = some b ∧ BBenign b :=
    fun w hx => by
      obtain ⟨b, h1, h2⟩ := hw w hx
      exact ⟨b, h1, BBenign.of_inert h2⟩
  have herr := (fireL_benign (callN m.succ) (callN_benignOK m) (reg s1 k) s1 v
    (alGet s1.base k) hbenign he).1
  rw [if_neg (by rw [herr]; simp)]
  exact hfl

/-! ### A retired watcher id never fires again -/

theorem idFree_congr {s t : WatchMap K V} {i : Nat}
    (h1 : t.watchers = s.watchers) (h2 : t.nextId = s.nextId)
    (h : idFree s i) : idFree t i := by
  refine ⟨fun j w hw => h.1 j w ?_, h2 ▸ h.2⟩
  rwa [reg, h1] at hw

theorem invCount_append (i : Nat) (l1 l2 : List (Event K V)) :
    invCount i (l1 ++ l2) = invCount i l1 + invCount i l2 := by
  rw [invCount, invokesOf_append, List.countP_append]; rfl

theorem invCount_invoke (i j : Nat) (v : V) (o : Option V) :
    invCount i ([Event.invoke j v o] : List (Event K V)) =
      if j = i then 1 else 0 := by
  by_cases h : j = i <;> simp [invCount, invokesOf, List.countP, List.countP.go, h]

theorem invCount_observed (i : Nat) (k : K) (o : Option V) :
    invCount i ([Event.observed k o] : List (Event K V)) = 0 := rfl

theorem invCount_typeErr (i : Nat) :
    invCount i ([Event.typeError] : List (Event K V)) = 0 := rfl

/-- A firing pass over a snapshot that does not contain the retired id never
invokes it, whatever the callbacks do one level down. -/
theorem fireL_free (i : Nat) (call : WatchMap K V → Cmd K V → WatchMap K V)
    (Hcall : CallFreeOK i call) :
    ∀ (L : List (Watcher K V)) (s : WatchMap K V) (v : V) (old : Option V),
    (∀ w ∈ L, w.id ≠ i) → idFree s i →
    idFree (fireL call s L v old) i ∧
    invCount i (fireL call s L v old).log = invCount i s.log := by
  intro L
  induction L with
  | nil => intro s v old _ hf; exact ⟨hf, rfl⟩
  | cons w rest ih =>
    intro s v old hL hf
    rw [fireL]
    by_cases he : s.err = true
    · rw [if_pos he]; exact ⟨hf, rfl⟩
    · rw [if_neg he]
      cases hcb : w.callback with
      | none =>
        have hm : idFree (mkErr s) i := idFree_congr rfl rfl hf
        have := ih (mkErr s) v old (fun x hx => hL x (List.mem_cons_of_mem w hx)) hm
        refine ⟨this.1, ?_⟩
        rw [this.2, mkErr, invCount_append, invCount_typeErr, Nat.add_zero]
      | some b =>
        set s1 : WatchMap K V := { s with log := s.log ++ [.invoke w.id v old] } with hs1
        have hf1 : idFree s1 i := idFree_congr rfl rfl hf
        have hcnt1 : invCount i s1.log = invCount i s.log := by
          rw [hs1]
          show invCount i (s.log ++ [.invoke w.id v old]) = _
          rw [invCount_append, invCount_invoke,
            if_neg (hL w (List.mem_cons_self w rest)), Nat.add_zero]
        have hcall := Hcall s1 (b v old none) hf1
        have := ih (call s1 (b v old none)) v old
          (fun x hx => hL x (List.mem_cons_of_mem w hx)) hcall.1
        exact ⟨this.1, by rw [this.2, hcall.2, hcnt1]⟩

/-- The `set` body respects retirement: the snapshot comes from a registry
that no longer contains the id. -/
theorem doSetL_free (i : Nat) (call : WatchMap K V → Cmd K V → WatchMap K V)
    (Hcall : CallFreeOK i call) (s : WatchMap K V) (k : K) (v : V)
    (hf : idFree s i) :
    idFree (doSetL call s k v) i ∧
    invCount i (doSetL call s k v).log = invCount i s.log := by
  rw [doSetL]
  by_cases he : s.err = true
  · rw [if_pos he]; exact ⟨hf, rfl⟩
  · rw [if_neg he]
    set s1 : WatchMap K V := { s with prev := alSet s.prev k (alGet s.base k) } with hs1
    have hf1 : idFree s1 i := idFree_congr rfl rfl hf
    have hfl := fireL_free i call Hcall (reg s1 k) s1 v (alGet s1.base k)
      (fun w hw => hf1.1 k w hw) hf1
    by_cases he2 : (fireL call s1 (reg s1 k) v (alGet s1.base k)).err = true
    · rw [if_pos he2]; exact hfl
    · rw [if_neg he2]
      exact ⟨idFree_congr rfl rfl hfl.1, hfl.2⟩

/-- A whole callback body respects retirement. -/
theorem runCmdL_free (i : Nat) (call : WatchMap K V → Cmd K V → WatchMap K V)
    (Hcall : CallFreeOK i call) :
    ∀ (c : Cmd K V) (s : WatchMap K V), idFree s i →
    idFree (runCmdL call s c) i ∧
    invCount i (runCmdL call s c).log = invCount i s.log := by
  intro c
  induction c with
  | ret =>
    intro s hf
    rw [runCmdL]
    split
    · exact ⟨hf, rfl⟩
    · exact ⟨hf, rfl⟩
  | set k v next ih =>
    intro s hf
    rw [runCmdL]
    by_cases he : s.err = true
    · rw [if_pos he]; exact ⟨hf, rfl⟩
    · rw [if_neg he]
      have h1 := doSetL_free i call Hcall s k v hf
      have h2 := ih (doSetL call s k v) h1.1
      exact ⟨h2.1, by rw [h2.2, h1.2]⟩
  | del k next ih =>
    intro s hf
    rw [runCmdL]
    by_cases he : s.err = true
    · rw [if_pos he]; exact ⟨hf, rfl⟩
    · rw [if_neg he]
      have h1 : idFree (deleteOp s k).1 i := idFree_congr rfl rfl hf
      have h2 := ih (deleteOp s k).1 h1
      exact ⟨h2.1, h2.2⟩
  | cancel k j next ih =>
    intro s hf
    rw [runCmdL]
    by_cases he : s.err = true
    · rw [if_pos he]; exact ⟨hf, rfl⟩
    · rw [if_neg he]
      have h1 : idFree (cancelOp s k j) i := by
        refine ⟨fun j2 w hw => ?_, by rw [cancelOp_nextId]; exact hf.2⟩
        rw [reg_cancelOp] at hw
        by_cases hj2 : j2 = k
        · rw [if_pos hj2] at hw
          exact hf.1 k w (List.mem_of_mem_filter hw)
        · rw [if_neg hj2] at hw
          exact hf.1 j2 w hw
      have h2 := ih (cancelOp s k j) h1
      exact ⟨h2.1, by rw [h2.2, cancelOp_log]⟩
  | probe k next ih =>
    intro s hf
    rw [runCmdL]
    by_cases he : s.err = true
    · rw [if_pos he]; exact ⟨hf, rfl⟩
    · rw [if_neg he]
      have h1 : idFree (probeOp s k) i := idFree_congr rfl rfl hf
      have h2 := ih (probeOp s k) h1
      refine ⟨h2.1, ?_⟩
      rw [h2.2]
      show invCount i (s.log ++ [.observed k (alGet s.base k)]) = _
      rw [invCount_append, invCount_observed, Nat.add_zero]
  | throwTE =>
    intro s hf
    rw [runCmdL]
    by_cases he : s.err = true
    · rw [if_pos he]; exact ⟨hf, rfl⟩
    · rw [if_neg he]
      refine ⟨idFree_congr rfl rfl hf, ?_⟩
      rw [mkErr, invCount_append, invCount_typeErr, Nat.add_zero]

/-- The interpreter respects retirement at every fuel. -/
theorem callN_free (i : Nat) : ∀ (fuel : Nat), CallFreeOK i (callN (K := K) (V := V) fuel) := by
  intro fuel
  induction fuel with
  | zero => intro s c hf; exact ⟨idFree_congr rfl rfl hf, rfl⟩
  | succ n ih => intro s c hf; exact runCmdL_free i (callN n) ih c s hf

/-- A `watch` registration respects retirement: the new record carries a
fresh id, and the immediate `always` invocation (if any) is of the fresh
callback, not the retired id. -/
theorem watchOp_free (i fuel : Nat) (s : WatchMap K V) (k : K)
    (cb : Option (Behavior K V)) (alw : Bool) (hf : idFree s i) :
    idFree (watchOp fuel s k cb alw).1 i ∧
    invCount i (watchOp fuel s k cb alw).1.log = invCount i s.log := by
  rw [watchOp]
  set s1 : WatchMap K V :=
    { s with watchers := alSet s.watchers k (reg s k ++ [⟨s.nextId, cb⟩]),
             nextId := s.nextId + 1 } with hs1
  have hf1 : idFree s1 i := by
    refine ⟨fun j w hw => ?_, Nat.lt_succ_of_lt hf.2⟩
    rw [reg, hs1] at hw
    by_cases hj : j = k
    · subst hj
      rw [alGet_alSet_self] at hw
      simp only [Option.getD_some] at hw
      rcases List.mem_append.1 hw with h | h
      · exact hf.1 j w h
      · have : w = ⟨s.nextId, cb⟩ := List.mem_singleton.1 h
        rw [this]
        exact fun hc => absurd (hc ▸ hf.2) (lt_irrefl _)
    · rw [alGet_alSet_of_ne _ _ _ _ hj] at hw
      exact hf.1 j w hw
  cases alw with
  | false => exact ⟨hf1, rfl⟩
  | true =>
    simp only [if_true]
    cases hb : alGet s1.base k with
    | none => exact ⟨hf1, rfl⟩
    | some v =>
      cases cb with
      | none =>
        refine ⟨idFree_congr rfl rfl hf1, ?_⟩
        show invCount i (s1.log ++ [.typeError]) = _
        rw [invCount_append, invCount_typeErr, Nat.add_zero]
      | some b =>
        set s2 : WatchMap K V :=
          { s1 with log := s1.log ++ [.invoke s.nextId v (prevShadow s1 k)] } with hs2
        have hf2 : idFree s2 i := idFree_congr rfl rfl hf1
        have hcnt : invCount i s2.log = invCount i s.log := by
          rw [hs2]
          show invCount i (s1.log ++ [.invoke s.nextId v (prevShadow s1 k)]) = _
          rw [invCount_append, invCount_invoke,
            if_neg (fun hc => absurd (hc ▸ hf.2) (lt_irrefl _)), Nat.add_zero]
        have hc := callN_free i fuel s2 (b v (prevShadow s1 k) (some (k, s.nextId))) hf2
        exact ⟨hc.1, by rw [hc.2, hcnt]⟩

/-- Every top-level operation respects retirement: in particular `watch` and
`once` assign fresh ids, so the retired id is never reinstalled. -/
theorem runOp_free (i fuel : Nat) (s : WatchMap K V) (op : Op K V)
    (hf : idFree s i) :
    idFree (runOp fuel s op) i ∧
    invCount i (runOp fuel s op).log = invCount i s.log := by
  cases op with
  | set k v => exact doSetL_free i (callN fuel) (callN_free i fuel) s k v hf
  | del k => exact ⟨idFree_congr rfl rfl hf, rfl⟩
  | cancel k j =>
    refine ⟨⟨fun j2 w hw => ?_,
        by show i < (cancelOp s k j).nextId; rw [cancelOp_nextId]; exact hf.2⟩,
      by show invCount i (cancelOp s k j).log = _; rw [cancelOp_log]⟩
    rw [runOp, reg_cancelOp] at hw
    by_cases hj2 : j2 = k
    · rw [if_pos hj2] at hw
      exact hf.1 k w (List.mem_of_mem_filter hw)
    · rw [if_neg hj2] at hw
      exact hf.1 j2 w hw
  | watch k cb alw => exact watchOp_free i fuel s k cb alw hf
  | once k cb alw => exact watchOp_free i fuel s k _ alw hf

/-- A whole sequence of top-level operations respects retirement. -/
theorem runOps_free (i fuel : Nat) :
    ∀ (ops : List (Op K V)) (s : WatchMap K V), idFree s i →
    idFree (runOps fuel s ops) i ∧
    invCount i (runOps fuel s ops).log = invCount i s.log := by
  intro ops
  induction ops with
  | nil => intro s hf; exact ⟨hf, rfl⟩
  | cons op rest ih =>
    intro s hf
    rw [runOps]
    by_cases he : s.err = true
    · rw [if_pos he]; exact ih s hf
    · rw [if_neg he]
      have h1 := runOp_free i fuel s op hf
      have h2 := ih (runOp fuel s op) h1.1
      exact ⟨h2.1, by rw [h2.2, h1.2]⟩

/-! ### Reads during a firing pass observe the pre-update value -/

theorem probeInv_cancelOp {k0 : K} {X : Option V} {base0 : List (Event K V)}
    {t : WatchMap K V} (k : K) (i : Nat) (h : ProbeInv k0 X base0 t) :
    ProbeInv k0 X base0 (cancelOp t k i) := by
  refine ⟨by rw [cancelOp_base]; exact h.1, ?_, ?_⟩
  · intro j w b hw hb
    rw [reg_cancelOp] at hw
    by_cases hj : j = k
    · rw [if_pos hj] at hw
      exact h.2.1 k w b (List.mem_of_mem_filter hw) hb
    · rw [if_neg hj] at hw
      exact h.2.1 j w b hw hb
  · intro x hx
    rw [cancelOp_log] at hx
    exact h.2.2 x hx

theorem probeInv_mkErr {k0 : K} {X : Option V} {base0 : List (Event K V)}
    {t : WatchMap K V} (h : ProbeInv k0 X base0 t) :
    ProbeInv k0 X base0 (mkErr t) := by
  refine ⟨h.1, h.2.1, ?_⟩
  intro x hx
  rcases List.mem_append.1 hx with hx | hx
  · exact h.2.2 x hx
  · cases List.mem_singleton.1 hx

theorem probeInv_addInvoke {k0 : K} {X : Option V} {base0 : List (Event K V)}
    {t : WatchMap K V} (i : Nat) (v : V) (o : Option V)
    (h : ProbeInv k0 X base0 t) :
    ProbeInv k0 X base0 { t with log := t.log ++ [.invoke i v o] } := by
  refine ⟨h.1, h.2.1, ?_⟩
  intro x hx
  rcases List.mem_append.1 hx with hx | hx
  · exact h.2.2 x hx
  · cases List.mem_singleton.1 hx

theorem probeInv_probeOp {k0 : K} {X : Option V} {base0 : List (Event K V)}
    {t : WatchMap K V} (k : K) (h : ProbeInv k0 X base0 t) :
    ProbeInv k0 X base0 (probeOp t k) := by
  refine ⟨h.1, h.2.1, ?_⟩
  intro x hx
  rcases List.mem_append.1 (by exact hx) with hx | hx
  · exact h.2.2 x hx
  · have := List.mem_singleton.1 hx
    by_cases hk : k = k0
    · subst hk
      right
      have hv : alGet t.base k = X := h.1
      cases this
      exact hv
    · cases this
      exact absurd rfl hk

/-- A firing pass whose snapshot callbacks all avoid writing `k0` preserves
the pass invariant. -/
theorem fireL_avoid (k0 : K) (X : Option V) (base0 : List (Event K V))
    (call : WatchMap K V → Cmd K V → WatchMap K V)
    (Hcall : CallAvoidOK k0 X base0 call) :
    ∀ (L : List (Watcher K V)) (t : WatchMap K V) (v : V) (old : Option V),
    (∀ w ∈ L, ∀ b, w.callback = some b → BAvoids k0 b) →
    ProbeInv k0 X base0 t →
    ProbeInv k0 X base0 (fireL call t L v old) := by
  intro L
  induction L with
  | nil => intro t v old _ h; exact h
  | cons w rest ih =>
    intro t v old hL h
    rw [fireL]
    by_cases he : t.err = true
    · rw [if_pos he]; exact h
    · rw [if_neg he]
      cases hcb : w.callback with
      | none =>
        exact ih (mkErr t) v old (fun x hx => hL x (List.mem_cons_of_mem w hx))
          (probeInv_mkErr h)
      | some b =>
        have hav : BAvoids k0 b := hL w (List.mem_cons_self w rest) b hcb
        have h1 := probeInv_addInvoke w.id v old h
        have h2 := Hcall _ (b v old none) (hav v old none) h1
        exact ih _ v old (fun x hx => hL x (List.mem_cons_of_mem w hx)) h2

/-- The `set` body on a key other than `k0` preserves the pass invariant. -/
theorem doSetL_avoid (k0 : K) (X : Option V) (base0 : List (Event K V))
    (call : WatchMap K V → Cmd K V → WatchMap K V)
    (Hcall : CallAvoidOK k0 X base0 call) (t : WatchMap K V) (k : K) (v : V)
    (hk : k ≠ k0) (h : ProbeInv k0 X base0 t) :
    ProbeInv k0 X base0 (doSetL call t k v) := by
  rw [doSetL]
  by_cases he : t.err = true
  · rw [if_pos he]; exact h
  · rw [if_neg he]
    set t1 : WatchMap K V := { t with prev := alSet t.prev k (alGet t.base k) } with ht1
    have h1 : ProbeInv k0 X base0 t1 := ⟨h.1, h.2.1, h.2.2⟩
    have h2 := fireL_avoid k0 X base0 call Hcall (reg t1 k) t1 v (alGet t1.base k)
      (fun w hw b hb => h1.2.1 k w b hw hb) h1
    by_cases he2 : (fireL call t1 (reg t1 k) v (alGet t1.base k)).err = true
    · rw [if_pos he2]; exact h2
    · rw [if_neg he2]
      refine ⟨?_, h2.2.1, h2.2.2⟩
      show alGet (alSet _ k v) k0 = X
      rw [alGet_alSet_of_ne _ _ _ _ (Ne.symm hk)]
      exact h2.1

/-- A whole command body avoiding `k0` preserves the pass invariant. -/
theorem runCmdL_avoid (k0 : K) (X : Option V) (base0 : List (Event K V))
    (call : WatchMap K V → Cmd K V → WatchMap K V)
    (Hcall : CallAvoidOK k0 X base0 call) :
    ∀ (c : Cmd K V) (t : WatchMap K V), c.avoids k0 = true →
    ProbeInv k0 X base0 t → ProbeInv k0 X base0 (runCmdL call t c) := by
  intro c
  induction c with
  | ret =>
    intro t _ h
    rw [runCmdL]
    split
    · exact h
    · exact h
  | set k v next ih =>
    intro t hc h
    rw [Cmd.avoids, Bool.and_eq_true] at hc
    have hk : k ≠ k0 := by
      intro hkk
      rw [hkk] at hc
      simp at hc
    rw [runCmdL]
    by_cases he : t.err = true
    · rw [if_pos he]; exact h
    · rw [if_neg he]
      exact ih _ hc.2 (doSetL_avoid k0 X base0 call Hcall t k v hk h)
  | del k next ih =>
    intro t hc h
    rw [Cmd.avoids, Bool.and_eq_true] at hc
    have hk : k ≠ k0 := by
      intro hkk
      rw [hkk] at hc
      simp at hc
    rw [runCmdL]
    by_cases he : t.err = true
    · rw [if_pos he]; exact h
    · rw [if_neg he]
      refine ih _ hc.2 ⟨?_, h.2.1, h.2.2⟩
      show alGet (alDelete t.base k) k0 = X
      rw [alGet_alDelete_of_ne _ _ _ (Ne.symm hk)]
      exact h.1
  | cancel k i next ih =>
    intro t hc h
    rw [runCmdL]
    by_cases he : t.err = true
    · rw [if_pos he]; exact h
    · rw [if_neg he]
      exact ih _ hc (probeInv_cancelOp k i h)
  | probe k next ih =>
    intro t hc h
    rw [runCmdL]
    by_cases he : t.err = true
    · rw [if_pos he]; exact h
    · rw [if_neg he]
      exact ih _ hc (probeInv_probeOp k h)
  | throwTE =>
    intro t _ h
    rw [runCmdL]
    by_cases he : t.err = true
    · rw [if_pos he]; exact h
    · rw [if_neg he]
      exact probeInv_mkErr h

/-- The interpreter preserves the pass invariant at every fuel. -/
theorem callN_avoid (k0 : K) (X : Option V) (base0 : List (Event K V)) :
    ∀ (fuel : Nat), CallAvoidOK k0 X base0 (callN (K := K) (V := V) fuel) := by
  intro fuel
  induction fuel with
  | zero => intro t c _ h; exact ⟨h.1, h.2.1, h.2.2⟩
  | succ n ih => intro t c hc h; exact runCmdL_avoid k0 X base0 (callN n) ih c t hc h

/-! ### One-shot watchers fire at most once (without reentrant writes) -/

theorem runCmdL_errState (call : WatchMap K V → Cmd K V → WatchMap K V)
    (s : WatchMap K V) (c : Cmd K V) (h : s.err = true) :
    runCmdL call s c = s := by
  cases c <;> rw [runCmdL] <;> rw [if_pos h]

theorem runCmdL_ret (call : WatchMap K V → Cmd K V → WatchMap K V)
    (s : WatchMap K V) : runCmdL call s .ret = s := by
  rw [runCmdL]
  split <;> rfl

/-- Sequencing commutes with interpretation: a throw in the first part makes
the second a no-op through the abort guard. -/
theorem runCmdL_andThen (call : WatchMap K V → Cmd K V → WatchMap K V) :
    ∀ (c1 c2 : Cmd K V) (s : WatchMap K V),
    runCmdL call s (c1.andThen c2) = runCmdL call (runCmdL call s c1) c2 := by
  intro c1
  induction c1 with
  | ret => intro c2 s; rw [Cmd.andThen, runCmdL_ret]
  | set k v next ih =>
    intro c2 s
    rw [Cmd.andThen]
    by_cases he : s.err = true
    · rw [runCmdL_errState call s _ he, runCmdL_errState call s _ he,
        runCmdL_errState call s c2 he]
    · rw [runCmdL, if_neg he, ih, runCmdL, if_neg he]
  | del k next ih =>
    intro c2 s
    rw [Cmd.andThen]
    by_cases he : s.err = true
    · rw [runCmdL_errState call s _ he, runCmdL_errState call s _ he,
        runCmdL_errState call s c2 he]
    · rw [runCmdL, if_neg he, ih, runCmdL, if_neg he]
  | cancel k i next ih =>
    intro c2 s
    rw [Cmd.andThen]
    by_cases he : s.err = true
    · rw [runCmdL_errState call s _ he, runCmdL_errState call s _ he,
        runCmdL_errState call s c2 he]
    · rw [runCmdL, if_neg he, ih, runCmdL, if_neg he]
  | probe k next ih =>
    intro c2 s
    rw [Cmd.andThen]
    by_cases he : s.err = true
    · rw [runCmdL_errState call s _ he, runCmdL_errState call s _ he,
        runCmdL_errState call s c2 he]
    · rw [runCmdL, if_neg he, ih, runCmdL, if_neg he]
  | throwTE =>
    intro c2 s
    rw [Cmd.andThen]
    by_cases he : s.err = true
    · rw [runCmdL_errState call s _ he, runCmdL_errState call s _ he]
    · have h1 : runCmdL call s (.throwTE : Cmd K V) = mkErr s := by
        rw [runCmdL, if_neg he]
      rw [h1, runCmdL_errState call (mkErr s) c2 rfl]

theorem Cmd.calm_andThen {K V : Type} :
    ∀ {c1 c2 : Cmd K V}, c1.calm = true → c2.calm = true →
    (c1.andThen c2).calm = true
  | .ret, _, _, h2 => h2
  | .cancel _ _ n, c2, h1, h2 => @Cmd.calm_andThen K V n c2 h1 h2
  | .probe _ n, c2, h1, h2 => @Cmd.calm_andThen K V n c2 h1 h2
  | .throwTE, _, _, _ => rfl

/-- A calm command body leaves every per-key watcher list a sublist of what
it was: calm bodies can only cancel. -/
theorem calm_run_sub (call : WatchMap K V → Cmd K V → WatchMap K V) :
    ∀ (c : Cmd K V) (s : WatchMap K V), c.calm = true →
    ∀ j, (reg (runCmdL call s c) j).Sublist (reg s j) := by
  intro c
  induction c with
  | ret => intro s _ j; rw [runCmdL_ret]
  | set k v next ih => intro s h; simp [Cmd.calm] at h
  | del k next ih => intro s h; simp [Cmd.calm] at h
  | cancel k i next ih =>
    intro s h j
    rw [runCmdL]
    by_cases he : s.err = true
    · rw [if_pos he]
    · rw [if_neg he]
      refine (ih (cancelOp s k i) h j).trans ?_
      rw [reg_cancelOp]
      by_cases hj : j = k
      · rw [if_pos hj, hj]
        exact List.filter_sublist _
      · rw [if_neg hj]
  | probe k next ih =>
    intro s h j
    rw [runCmdL]
    by_cases he : s.err = true
    · rw [if_pos he]
    · rw [if_neg he]
      exact ih (probeOp s k) h j
  | throwTE =>
    intro s _ j
    rw [runCmdL]
    split <;> rfl

theorem calm_callN_sub (fuel : Nat) (c : Cmd K V) (s : WatchMap K V)
    (h : c.calm = true) :
    ∀ j, (reg (callN fuel s c) j).Sublist (reg s j) := by
  cases fuel with
  | zero => intro j; rfl
  | succ n => exact calm_run_sub (callN n) c s h

theorem C4Inv.count_le {k : K} {i : Nat} {W : Behavior K V} {s : WatchMap K V}
    (h : C4Inv k i W s) : invCount i s.log ≤ 1 := by
  rcases h with h | h
  · exact h.2
  · rcases h.2.2.2.2 with h5 | h5
    · rw [h5]; exact Nat.zero_le 1
    · exact h5.1

theorem noRec_countP {s : WatchMap K V} {i : Nat} (h : noRec s i) (j : K) :
    List.countP (fun w => w.id = i) (reg s j) = 0 := by
  rw [List.countP_eq_zero]
  intro w hw
  simpa using h j w hw

/-- The wrapper's body is calm whenever the wrapped callback is. -/
theorem onceWrapper_calm (k : K) (i : Nat) (cb : V → Option V → Cmd K V)
    (hcb : ∀ v ov, (cb v ov).calm = true) :
    BCalm (onceWrapper k i (some cb)) := by
  intro v ov tok
  exact Cmd.calm_andThen (hcb v ov) rfl

/-- Running the once wrapper body: nothing with the tracked id gets invoked
or registered, the id counter stands still, registries only shrink, and
afterwards either the run has aborted or the tracked id is fully
unregistered (the wrapper ran its own cancellation). -/
theorem onceWrapper_run (k : K) (i : Nat) (cb : V → Option V → Cmd K V)
    (hcb : ∀ v ov, (cb v ov).calm = true) (fuel : Nat) (s : WatchMap K V)
    (v : V) (ov : Option V) (tok : Option (K × Nat))
    (honly : ∀ j w, w ∈ reg s j → w.id = i → j = k) :
    invCount i (callN fuel s (onceWrapper k i (some cb) v ov tok)).log =
      invCount i s.log ∧
    (callN fuel s (onceWrapper k i (some cb) v ov tok)).nextId = s.nextId ∧
    (∀ j, (reg (callN fuel s (onceWrapper k i (some cb) v ov tok)) j).Sublist
      (reg s j)) ∧
    ((callN fuel s (onceWrapper k i (some cb) v ov tok)).err = true ∨
      noRec (callN fuel s (onceWrapper k i (some cb) v ov tok)) i) := by
  cases fuel with
  | zero =>
    exact ⟨rfl, rfl, fun j => List.Sublist.refl _, Or.inl rfl⟩
  | succ n =>
    rw [callN]
    show _ ∧ _
    have hbody : onceWrapper k i (some cb) v ov tok =
        (cb v ov).andThen (.cancel k i .ret) := rfl
    rw [hbody, runCmdL_andThen]
    set t1 := runCmdL (callN n) s (cb v ov) with ht1
    have hc1 := calm_run (callN n) (cb v ov) s (hcb v ov)
    have hs1 := calm_run_sub (callN n) (cb v ov) s (hcb v ov)
    have hcnt1 : invCount i t1.log = invCount i s.log := by
      rw [invCount, hc1.1]; rfl
    by_cases he : t1.err = true
    · rw [runCmdL_errState _ _ _ he]
      exact ⟨hcnt1, hc1.2.1, hs1, Or.inl he⟩
    · rw [runCmdL]
      rw [if_neg he, runCmdL_ret]
      refine ⟨by rw [cancelOp_log]; exact hcnt1,
        by rw [cancelOp_nextId]; exact hc1.2.1, ?_, Or.inr ?_⟩
      · intro j
        refine List.Sublist.trans ?_ (hs1 j)
        rw [reg_cancelOp]
        by_cases hj : j = k
        · rw [if_pos hj, hj]
          exact List.filter_sublist _
        · rw [if_neg hj]
      · intro j w hw
        rw [reg_cancelOp] at hw
        by_cases hj : j = k
        · rw [if_pos hj] at hw
          have := List.mem_filter.1 hw
          simpa using this.2
        · rw [if_neg hj] at hw
          intro hww
          exact hj (honly j w ((hs1 j).mem hw) hww)

theorem C4Pass_of_inv {k : K} {i : Nat} {W : Behavior K V} {s : WatchMap K V}
    (L : List (Watcher K V)) (hL : List.countP (fun w => w.id = i) L ≤
      List.countP (fun w => w.id = i) (reg s k))
    (h : C4Inv k i W s) : C4Pass k i W L s := by
  rcases h with h | h
  · exact Or.inl h
  · obtain ⟨h1, h2, h3, h4, h5⟩ := h
    refine Or.inr ⟨h1, h2, h3, ?_⟩
    rcases h5 with h5 | h5
    · exact Or.inl ⟨h5, h4, hL.trans h4⟩
    · refine Or.inr ⟨h5.1, ?_, h5.2⟩
      rw [Nat.le_zero.1 (hL.trans (le_of_eq (noRec_countP h5.2 k)))]

theorem C4Inv_of_pass {k : K} {i : Nat} {W : Behavior K V} {s : WatchMap K V}
    (h : C4Pass k i W [] s) : C4Inv k i W s := by
  rcases h with h | h
  · exact Or.inl h
  · obtain ⟨h1, h2, h3, h4⟩ := h
    refine Or.inr ⟨h1, h2, h3, ?_, ?_⟩
    · rcases h4 with h4 | h4
      · exact h4.2.1
      · rw [noRec_countP h4.2.2 k]
        exact Nat.zero_le 1
    · rcases h4 with h4 | h4
      · exact Or.inl h4.1
      · exact Or.inr ⟨h4.1, h4.2.2⟩

/-- One firing pass preserves the at-most-once invariant: the snapshot may
contain the tracked wrapper at most once, so it is invoked at most once in
the pass, and its own cancellation retires it before any later pass can see
it. -/
theorem fireL_c4 (k : K) (i : Nat) (cb : V → Option V → Cmd K V)
    (hcb : ∀ v ov, (cb v ov).calm = true) (fuel : Nat) :
    ∀ (L : List (Watcher K V)) (s : WatchMap K V) (v : V) (old : Option V),
    (∀ w ∈ L, ∀ b, w.callback = some b → BCalm b) →
    (∀ w ∈ L, w.id = i → w.callback = some (onceWrapper k i (some cb))) →
    C4Pass k i (onceWrapper k i (some cb)) L s →
    C4Pass k i (onceWrapper k i (some cb)) []
      (fireL (callN fuel) s L v old) := by
  intro L
  induction L with
  | nil => intro s v old _ _ h; exact h
  | cons w rest ih =>
    intro s v old hLc hLW h
    rw [fireL]
    by_cases he : s.err = true
    · rw [if_pos he]
      rcases h with h | h
      · exact Or.inl h
      · exact Or.inr ⟨h.1, h.2.1, h.2.2.1, by
          rcases h.2.2.2 with h4 | h4
          · exact Or.inl ⟨h4.1, h4.2.1, Nat.zero_le 1⟩
          · exact Or.inr ⟨h4.1, rfl, h4.2.2⟩⟩
    · rw [if_neg he]
      have hgood : StateCalm s ∧ i < s.nextId ∧
          (∀ j w2, w2 ∈ reg s j → w2.id = i →
            j = k ∧ w2.callback = some (onceWrapper k i (some cb))) ∧
          ((invCount i s.log = 0 ∧
            List.countP (fun w2 => w2.id = i) (reg s k) ≤ 1 ∧
            List.countP (fun w2 => w2.id = i) (w :: rest) ≤ 1) ∨
           (invCount i s.log ≤ 1 ∧
            List.countP (fun w2 => w2.id = i) (w :: rest) = 0 ∧ noRec s i)) := by
        rcases h with h | h
        · exact absurd h.1 he
        · exact h
      obtain ⟨hS, hN, hOnly, hD⟩ := hgood
      cases hcbw : w.callback with
      | none =>
        have hinv : invCount i s.log ≤ 1 := by
          rcases hD with h4 | h4
          · rw [h4.1]; exact Nat.zero_le 1
          · exact h4.1
        refine ih (mkErr s) v old (fun x hx => hLc x (List.mem_cons_of_mem w hx))
          (fun x hx => hLW x (List.mem_cons_of_mem w hx)) (Or.inl ⟨rfl, ?_⟩)
        rw [mkErr, invCount_append, invCount_typeErr, Nat.add_zero]
        exact hinv
      | some b =>
        set s1 : WatchMap K V := { s with log := s.log ++ [.invoke w.id v old] }
          with hs1
        by_cases hwi : w.id = i
        · -- the tracked wrapper fires: count goes to one, then it cancels
          -- itself (or the run aborts)
          have hbW : b = onceWrapper k i (some cb) := by
            have := hLW w (List.mem_cons_self w rest) hwi
            rw [hcbw] at this
            exact Option.some.inj this
          have hD1 : invCount i s.log = 0 ∧
              List.countP (fun w2 => w2.id = i) (reg s k) ≤ 1 ∧
              List.countP (fun w2 => w2.id = i) (w :: rest) ≤ 1 := by
            rcases hD with h4 | h4
            · exact h4
            · exact absurd h4.2.1 (by
                rw [List.countP_cons]
                simp [hwi])
          have hrest0 : List.countP (fun w2 => w2.id = i) rest = 0 := by
            have h5 := hD1.2.2
            rw [List.countP_cons] at h5
            simp [hwi] at h5
            rw [List.countP_eq_zero]
            intro a ha
            simpa using h5 a ha
          have hinv1 : invCount i s1.log = 1 := by
            rw [hs1]
            show invCount i (s.log ++ [.invoke w.id v old]) = 1
            rw [invCount_append, invCount_invoke, if_pos hwi, hD1.1]
          have honly1 : ∀ j w2, w2 ∈ reg s1 j → w2.id = i → j = k :=
            fun j w2 hw2 hi2 => (hOnly j w2 hw2 hi2).1
          have hrun := onceWrapper_run k i cb hcb fuel s1 v old none honly1
          rw [hbW]
          set t := callN fuel s1 (onceWrapper k i (some cb) v old none) with htdef
          obtain ⟨r1, r2, r3, r4⟩ := hrun
          have htinv : invCount i t.log = 1 := by rw [r1, hinv1]
          rcases r4 with r4 | r4
          · exact ih t v old (fun x hx => hLc x (List.mem_cons_of_mem w hx))
              (fun x hx => hLW x (List.mem_cons_of_mem w hx))
              (Or.inl ⟨r4, by rw [htinv]⟩)
          · refine ih t v old (fun x hx => hLc x (List.mem_cons_of_mem w hx))
              (fun x hx => hLW x (List.mem_cons_of_mem w hx))
              (Or.inr ⟨?_, ?_, ?_, Or.inr ⟨by rw [htinv], hrest0, r4⟩⟩)
            · intro j w2 b2 hw2 hb2
              exact hS j w2 b2 ((r3 j).mem hw2) hb2
            · rw [r2]; exact hN
            · intro j w2 hw2 hi2
              exact hOnly j w2 ((r3 j).mem hw2) hi2
        · -- an unrelated watcher fires a calm body
          have hbc : BCalm b := hLc w (List.mem_cons_self w rest) b hcbw
          have hc := calm_callN fuel (b v old none) s1 (hbc v old none)
          have hsub := calm_callN_sub fuel (b v old none) s1 (hbc v old none)
          set t := callN fuel s1 (b v old none) with htdef
          have htinv : invCount i t.log = invCount i s.log := by
            rw [invCount, hc.1]
            show invCount i s1.log = _
            rw [hs1]
            show invCount i (s.log ++ [.invoke w.id v old]) = _
            rw [invCount_append, invCount_invoke, if_neg hwi, Nat.add_zero]
          have hsub2 : ∀ j, (reg t j).Sublist (reg s j) := fun j => hsub j
          refine ih t v old (fun x hx => hLc x (List.mem_cons_of_mem w hx))
            (fun x hx => hLW x (List.mem_cons_of_mem w hx))
            (Or.inr ⟨?_, ?_, ?_, ?_⟩)
          · intro j w2 b2 hw2 hb2
            exact hS j w2 b2 ((hsub2 j).mem hw2) hb2
          · rw [hc.2.1]; exact hN
          · intro j w2 hw2 hi2
            exact hOnly j w2 ((hsub2 j).mem hw2) hi2
          · rcases hD with h4 | h4
            · refine Or.inl ⟨by rw [htinv, h4.1], ?_, ?_⟩
              · exact ((hsub2 k).countP_le _).trans h4.2.1
              · refine le_trans (le_of_eq ?_) h4.2.2
                rw [List.countP_cons]
                simp [hwi]
            · refine Or.inr ⟨by rw [htinv]; exact h4.1, ?_, ?_⟩
              · have := h4.2.1
                rw [List.countP_cons] at this
                omega
              · intro j w2 hw2
                exact h4.2.2 j w2 ((hsub2 j).mem hw2)

theorem reg_congr {s t : WatchMap K V} (hw : t.watchers = s.watchers) :
    ∀ j, reg t j = reg s j := by
  intro j
  rw [reg, reg, hw]

theorem C4Inv_congr {k : K} {i : Nat} {W : Behavior K V}
    {s t : WatchMap K V} (hw : t.watchers = s.watchers)
    (hn : t.nextId = s.nextId) (hl : invCount i t.log = invCount i s.log)
    (herr : t.err = s.err) (h : C4Inv k i W s) : C4Inv k i W t := by
  rcases h with h | h
  · exact Or.inl ⟨by rw [herr, h.1], by rw [hl]; exact h.2⟩
  · refine Or.inr ⟨?_, by rw [hn]; exact h.2.1, ?_, ?_, ?_⟩
    · intro j w b hwj hb
      exact h.1 j w b (by rwa [reg_congr hw] at hwj) hb
    · intro j w hwj hi
      exact h.2.2.1 j w (by rwa [reg_congr hw] at hwj) hi
    · rw [reg_congr hw]; exact h.2.2.2.1
    · rcases h.2.2.2.2 with h5 | h5
      · exact Or.inl (by rw [hl]; exact h5)
      · exact Or.inr ⟨by rw [hl]; exact h5.1,
          fun j w hwj => h5.2 j w (by rwa [reg_congr hw] at hwj)⟩

/-- Shrinking the registries (sublists per key), keeping the id counter and
the invocation count, preserves the invariant — except that the
never-invoked disjunct needs the count untouched, which it is. -/
theorem C4Inv_shrink {k : K} {i : Nat} {W : Behavior K V}
    {s t : WatchMap K V} (hsub : ∀ j, (reg t j).Sublist (reg s j))
    (hn : t.nextId = s.nextId) (hl : invCount i t.log = invCount i s.log)
    (h : C4Inv k i W s) (hgood : s.err = false) : C4Inv k i W t := by
  rcases h with h | h
  · rw [hgood] at h; exact absurd h.1 Bool.false_ne_true
  · refine Or.inr ⟨?_, by rw [hn]; exact h.2.1, ?_, ?_, ?_⟩
    · intro j w b hwj hb
      exact h.1 j w b ((hsub j).mem hwj) hb
    · intro j w hwj hi
      exact h.2.2.1 j w ((hsub j).mem hwj) hi
    · exact ((hsub k).countP_le _).trans h.2.2.2.1
    · rcases h.2.2.2.2 with h5 | h5
      · exact Or.inl (by rw [hl]; exact h5)
      · exact Or.inr ⟨by rw [hl]; exact h5.1,
          fun j w hwj => h5.2 j w ((hsub j).mem hwj)⟩

/-- Running one calm command body preserves the invariant. -/
theorem C4Inv_calmBody (k : K) (i : Nat) (W : Behavior K V) (fuel : Nat)
    (c : Cmd K V) (hc : c.calm = true) (s : WatchMap K V)
    (h : C4Inv k i W s) : C4Inv k i W (callN fuel s c) := by
  have heff := calm_callN fuel c s hc
  have hsub := calm_callN_sub fuel c s hc
  have hl : invCount i (callN fuel s c).log = invCount i s.log := by
    rw [invCount, heff.1]; rfl
  by_cases he : (callN fuel s c).err = true
  · exact Or.inl ⟨he, by rw [hl]; exact C4Inv.count_le h⟩
  · have hse : s.err = false := by
      cases hs : s.err
      · rfl
      · exfalso
        apply he
        cases fuel with
        | zero => exact rfl
        | succ n => rw [callN, runCmdL_errState _ _ _ hs]; exact hs
    exact C4Inv_shrink hsub heff.2.1 hl h hse

/-- The `set` body preserves the at-most-once invariant. -/
theorem doSetL_c4 (k : K) (i : Nat) (cb : V → Option V → Cmd K V)
    (hcb : ∀ v ov, (cb v ov).calm = true) (fuel : Nat) (s : WatchMap K V)
    (k2 : K) (v : V) (h : C4Inv k i (onceWrapper k i (some cb)) s) :
    C4Inv k i (onceWrapper k i (some cb)) (doSetL (callN fuel) s k2 v) := by
  rw [doSetL]
  by_cases he : s.err = true
  · rw [if_pos he]; exact h
  · rw [if_neg he]
    have hg : StateCalm s ∧ i < s.nextId ∧
        (∀ j w, w ∈ reg s j → w.id = i →
          j = k ∧ w.callback = some (onceWrapper k i (some cb))) ∧
        List.countP (fun w => w.id = i) (reg s k) ≤ 1 ∧
        (invCount i s.log = 0 ∨ (invCount i s.log ≤ 1 ∧ noRec s i)) := by
      rcases h with herr | hg
      · exact absurd herr.1 he
      · exact hg
    set s1 : WatchMap K V := { s with prev := alSet s.prev k2 (alGet s.base k2) }
      with hs1
    have h1 : C4Inv k i (onceWrapper k i (some cb)) s1 :=
      C4Inv_congr rfl rfl rfl rfl h
    have hregeq : reg s1 k2 = reg s k2 := rfl
    have hLc : ∀ w ∈ reg s1 k2, ∀ b, w.callback = some b → BCalm b :=
      fun w hw b hb => hg.1 k2 w b hw hb
    have hLW : ∀ w ∈ reg s1 k2, w.id = i →
        w.callback = some (onceWrapper k i (some cb)) :=
      fun w hw hi => (hg.2.2.1 k2 w hw hi).2
    have hL : List.countP (fun w => w.id = i) (reg s1 k2) ≤
        List.countP (fun w => w.id = i) (reg s1 k) := by
      by_cases hk : k2 = k
      · rw [hk]
      · have : List.countP (fun w => w.id = i) (reg s1 k2) = 0 := by
          rw [List.countP_eq_zero]
          intro w hw
          simp only [decide_eq_true_eq]
          intro hi
          exact hk (hg.2.2.1 k2 w hw hi).1
        rw [this]
        exact Nat.zero_le _
    have hpass := fireL_c4 k i cb hcb fuel (reg s1 k2) s1 v (alGet s1.base k2)
      hLc hLW (C4Pass_of_inv _ hL h1)
    have h2 := C4Inv_of_pass hpass
    by_cases he2 :
        (fireL (callN fuel) s1 (reg s1 k2) v (alGet s1.base k2)).err = true
    · rw [if_pos he2]; exact h2
    · rw [if_neg he2]
      exact C4Inv_congr rfl rfl rfl rfl h2

/-- A `watch` registration of a calm (or non-callable) callback preserves
the at-most-once invariant: the new record gets a fresh id. -/
theorem watchOp_c4 (k : K) (i : Nat) (W : Behavior K V) (fuel : Nat)
    (s : WatchMap K V) (k2 : K) (cb2 : Option (Behavior K V)) (alw : Bool)
    (hcb2 : ∀ b, cb2 = some b → BCalm b) (he : s.err = false)
    (h : C4Inv k i W s) : C4Inv k i W (watchOp fuel s k2 cb2 alw).1 := by
  have hg : StateCalm s ∧ i < s.nextId ∧
      (∀ j w, w ∈ reg s j → w.id = i → j = k ∧ w.callback = some W) ∧
      List.countP (fun w => w.id = i) (reg s k) ≤ 1 ∧
      (invCount i s.log = 0 ∨ (invCount i s.log ≤ 1 ∧ noRec s i)) := by
    rcases h with herr | hg
    · exact absurd herr.1 (by rw [he]; exact Bool.false_ne_true)
    · exact hg
  rw [watchOp]
  set s1 : WatchMap K V :=
    { s with watchers := alSet s.watchers k2 (reg s k2 ++ [⟨s.nextId, cb2⟩]),
             nextId := s.nextId + 1 } with hs1
  have hreg1 : ∀ j, reg s1 j =
      if j = k2 then reg s k2 ++ [⟨s.nextId, cb2⟩] else reg s j := by
    intro j
    by_cases hj : j = k2
    · rw [if_pos hj, reg, hs1, hj]
      show (alGet (alSet s.watchers k2 _) k2).getD [] = _
      rw [alGet_alSet_self]
      rfl
    · rw [if_neg hj, reg, hs1]
      show (alGet (alSet s.watchers k2 _) j).getD [] = _
      rw [alGet_alSet_of_ne _ _ _ _ hj]
      rfl
  have hmem1 : ∀ j w, w ∈ reg s1 j → w ∈ reg s j ∨ w = ⟨s.nextId, cb2⟩ := by
    intro j w hw
    rw [hreg1 j] at hw
    by_cases hj : j = k2
    · rw [if_pos hj] at hw
      rcases List.mem_append.1 hw with hw | hw
      · left; rw [hj]; exact hw
      · right; exact List.mem_singleton.1 hw
    · rw [if_neg hj] at hw
      left; exact hw
  have h1 : C4Inv k i W s1 := by
    refine Or.inr ⟨?_, Nat.lt_succ_of_lt hg.2.1, ?_, ?_, ?_⟩
    · intro j w b hw hb
      rcases hmem1 j w hw with hw | hw
      · exact hg.1 j w b hw hb
      · refine hcb2 b ?_
        rw [← hb, hw]
    · intro j w hw hi
      rcases hmem1 j w hw with hw | hw
      · exact hg.2.2.1 j w hw hi
      · exfalso
        rw [hw] at hi
        exact absurd (hi ▸ hg.2.1) (lt_irrefl _)
    · rw [hreg1 k]
      by_cases hk : k = k2
      · rw [if_pos hk, List.countP_append]
        have hz : List.countP (fun w => w.id = i) [(⟨s.nextId, cb2⟩ : Watcher K V)] = 0 := by
          rw [List.countP_eq_zero]
          intro a ha
          rw [List.mem_singleton.1 ha]
          simp only [decide_eq_true_eq]
          exact fun hi => absurd (hi ▸ hg.2.1) (lt_irrefl _)
        rw [hz, Nat.add_zero, ← hk]
        exact hg.2.2.2.1
      · rw [if_neg hk]
        exact hg.2.2.2.1
    · rcases hg.2.2.2.2 with h5 | h5
      · exact Or.inl h5
      · refine Or.inr ⟨h5.1, ?_⟩
        intro j w hw
        rcases hmem1 j w hw with hw | hw
        · exact h5.2 j w hw
        · rw [hw]
          exact fun hi => absurd (hi ▸ hg.2.1) (lt_irrefl _)
  cases alw with
  | false => exact h1
  | true =>
    simp only [if_true]
    cases hb : alGet s1.base k2 with
    | none => exact h1
    | some v =>
      cases cb2 with
      | none =>
        exact Or.inl ⟨rfl, by
          show invCount i (s1.log ++ [.typeError]) ≤ 1
          rw [invCount_append, invCount_typeErr, Nat.add_zero]
          exact C4Inv.count_le h1⟩
      | some b =>
        set s2 : WatchMap K V :=
          { s1 with log := s1.log ++ [.invoke s.nextId v (prevShadow s1 k2)] }
          with hs2
        have h2 : C4Inv k i W s2 := by
          refine C4Inv_congr (s := s1) rfl rfl ?_ rfl h1
          rw [hs2]
          show invCount i (s1.log ++ [.invoke s.nextId v (prevShadow s1 k2)]) = _
          rw [invCount_append, invCount_invoke,
            if_neg (fun hc => absurd (hc ▸ hg.2.1) (lt_irrefl _)), Nat.add_zero]
        exact C4Inv_calmBody k i W fuel _
          (hcb2 b rfl v (prevShadow s1 k2) (some (k2, s.nextId))) s2 h2

/-- Every calm top-level operation preserves the at-most-once invariant. -/
theorem runOp_c4 (k : K) (i : Nat) (cb : V → Option V → Cmd K V)
    (hcb : ∀ v ov, (cb v ov).calm = true) (fuel : Nat) (s : WatchMap K V)
    (op : Op K V) (hop : CalmOp op) (he : s.err = false)
    (h : C4Inv k i (onceWrapper k i (some cb)) s) :
    C4Inv k i (onceWrapper k i (some cb)) (runOp fuel s op) := by
  cases op with
  | set k2 v => exact doSetL_c4 k i cb hcb fuel s k2 v h
  | del k2 => exact C4Inv_congr rfl rfl rfl rfl h
  | cancel k2 j =>
    show C4Inv k i (onceWrapper k i (some cb)) (cancelOp s k2 j)
    refine C4Inv_shrink ?_ (cancelOp_nextId s k2 j)
      (by rw [cancelOp_log]) h he
    intro j2
    rw [reg_cancelOp]
    by_cases hj : j2 = k2
    · rw [if_pos hj, hj]
      exact List.filter_sublist _
    · rw [if_neg hj]
  | watch k2 cb2 alw => exact watchOp_c4 k i _ fuel s k2 cb2 alw hop he h
  | once k2 cb3 alw =>
    refine watchOp_c4 k i _ fuel s k2 (some (onceWrapper k2 s.nextId cb3)) alw
      ?_ he h
    intro b hbw
    rw [← Option.some.inj hbw]
    cases cb3 with
    | none => intro v ov tok; rfl
    | some f => exact onceWrapper_calm k2 s.nextId f (hop f rfl)

/-- Any sequence of calm top-level operations preserves the at-most-once
invariant. -/
theorem runOps_c4 (k : K) (i : Nat) (cb : V → Option V → Cmd K V)
    (hcb : ∀ v ov, (cb v ov).calm = true) (fuel : Nat) :
    ∀ (ops : List (Op K V)) (s : WatchMap K V), (∀ op ∈ ops, CalmOp op) →
    C4Inv k i (onceWrapper k i (some cb)) s →
    C4Inv k i (onceWrapper k i (some cb)) (runOps fuel s ops) := by
  intro ops
  induction ops with
  | nil => intro s _ h; exact h
  | cons op rest ih =>
    intro s hops h
    rw [runOps]
    by_cases he : s.err = true
    · rw [if_pos he]
      exact ih s (fun x hx => hops x (List.mem_cons_of_mem op hx)) h
    · rw [if_neg he]
      have he2 : s.err = false := by
        cases hs : s.err
        · rfl
        · exact absurd hs he
      exact ih _ (fun x hx => hops x (List.mem_cons_of_mem op hx))
        (runOp_c4 k i cb hcb fuel s op (hops op (List.mem_cons_self op rest))
          he2 h)

/-- The registry after `watch` adds its record: the new record is appended
to the watched key's list; other keys are untouched. -/
theorem reg_watchAdd (s : WatchMap K V) (k : K) (cb2 : Option (Behavior K V)) :
    ∀ j, reg { s with
        watchers := alSet s.watchers k (reg s k ++ [⟨s.nextId, cb2⟩]),
        nextId := s.nextId + 1 } j =
      if j = k then reg s k ++ [⟨s.nextId, cb2⟩] else reg s j := by
  intro j
  by_cases hj : j = k
  · rw [if_pos hj, reg, hj]
    show (alGet (alSet s.watchers k _) k).getD [] = _
    rw [alGet_alSet_self]
    rfl
  · rw [if_neg hj, reg]
    show (alGet (alSet s.watchers k _) j).getD [] = _
    rw [alGet_alSet_of_ne _ _ _ _ hj]
    rfl

/-- Right after `once` registers (and possibly immediately fires, through
the `always` option), the at-most-once invariant holds for its fresh id. -/
theorem onceOp_establish (s : WatchMap K V) (k : K)
    (cb : V → Option V → Cmd K V) (alw : Bool) (f1 : Nat)
    (hS : StateCalm s)
    (hbound : ∀ j w, w ∈ reg s j → w.id < s.nextId)
    (hlog : invCount s.nextId s.log = 0)
    (hcb : ∀ v ov, (cb v ov).calm = true) :
    C4Inv k s.nextId (onceWrapper k s.nextId (some cb))
      (onceOp f1 s k (some cb) alw).1 := by
  rw [onceOp, watchOp]
  set i := s.nextId with hidef
  set W := onceWrapper k i (some cb) with hWdef
  set s1 : WatchMap K V :=
    { s with watchers := alSet s.watchers k (reg s k ++ [⟨i, some W⟩]),
             nextId := i + 1 } with hs1
  have hreg1 : ∀ j, reg s1 j =
      if j = k then reg s k ++ [⟨i, some W⟩] else reg s j :=
    reg_watchAdd s k (some W)
  have hmem1 : ∀ j w, w ∈ reg s1 j → w ∈ reg s j ∨ (j = k ∧ w = ⟨i, some W⟩) := by
    intro j w hw
    rw [hreg1 j] at hw
    by_cases hj : j = k
    · rw [if_pos hj] at hw
      rcases List.mem_append.1 hw with hw | hw
      · left; rw [hj]; exact hw
      · right; exact ⟨hj, List.mem_singleton.1 hw⟩
    · rw [if_neg hj] at hw
      left; exact hw
  have h1 : C4Inv k i W s1 := by
    refine Or.inr ⟨?_, Nat.lt_succ_self i, ?_, ?_, Or.inl hlog⟩
    · intro j w b hw hb
      rcases hmem1 j w hw with hw | hw
      · exact hS j w b hw hb
      · rw [hw.2] at hb
        rw [← Option.some.inj hb, hWdef]
        exact onceWrapper_calm k i cb hcb
    · intro j w hw hi
      rcases hmem1 j w hw with hw | hw
      · exact absurd hi (Nat.ne_of_lt (hbound j w hw))
      · rw [hw.2]
        exact ⟨hw.1, rfl⟩
    · rw [hreg1 k, if_pos rfl, List.countP_append]
      have hz : List.countP (fun w => w.id = i) (reg s k) = 0 := by
        rw [List.countP_eq_zero]
        intro a ha
        simp only [decide_eq_true_eq]
        exact Nat.ne_of_lt (hbound k a ha)
      rw [hz, Nat.zero_add]
      show List.countP _ [(⟨i, some W⟩ : Watcher K V)] ≤ 1
      rw [List.countP_cons]
      simp
  cases alw with
  | false => exact h1
  | true =>
    simp only [if_true]
    cases hb : alGet s1.base k with
    | none => exact h1
    | some v =>
      set s2 : WatchMap K V :=
        { s1 with log := s1.log ++ [.invoke i v (prevShadow s1 k)] } with hs2
      have hinv2 : invCount i s2.log = 1 := by
        rw [hs2]
        show invCount i (s1.log ++ [.invoke i v (prevShadow s1 k)]) = 1
        rw [invCount_append, invCount_invoke, if_pos rfl]
        show invCount i s.log + 1 = 1
        rw [hlog]
      have honly : ∀ j w, w ∈ reg s2 j → w.id = i → j = k := by
        intro j w hw hi
        rcases hmem1 j w hw with hw | hw
        · exact absurd hi (Nat.ne_of_lt (hbound j w hw))
        · exact hw.1
      have hrun := onceWrapper_run k i cb hcb f1 s2 v (prevShadow s1 k)
        (some (k, i)) honly
      obtain ⟨r1, r2, r3, r4⟩ := hrun
      set t := callN f1 s2 (onceWrapper k i (some cb) v (prevShadow s1 k)
        (some (k, i))) with htdef
      have htinv : invCount i t.log = 1 := by rw [r1, hinv2]
      rcases r4 with r4 | r4
      · exact Or.inl ⟨r4, by rw [htinv]⟩
      · refine Or.inr ⟨?_, by rw [r2]; exact Nat.lt_succ_self i, ?_, ?_,
          Or.inr ⟨by rw [htinv], r4⟩⟩
        · intro j w b hw hbw
          rcases hmem1 j w ((r3 j).mem hw) with hw2 | hw2
          · exact hS j w b hw2 hbw
          · rw [hw2.2] at hbw
            rw [← Option.some.inj hbw, hWdef]
            exact onceWrapper_calm k i cb hcb
        · intro j w hw hi
          exact absurd hi (r4 j w hw)
        · rw [noRec_countP r4 k]
          exact Nat.zero_le 1

/-- Unfolding `watch` without the immediate fire (`always` false): only the
record is appended and the id advanced. -/
theorem watchOp_false (fuel : Nat) (s : WatchMap K V) (k : K)
    (cb : Option (Behavior K V)) :
    (watchOp fuel s k cb false).1 =
      { s with watchers := alSet s.watchers k (reg s k ++ [⟨s.nextId, cb⟩]),
               nextId := s.nextId + 1 } := rfl

/-- Unfolding `watch` with `always` but an absent key: no immediate fire. -/
theorem watchOp_true_none (fuel : Nat) (s : WatchMap K V) (k : K)
    (cb : Option (Behavior K V)) (h : alGet s.base k = none) :
    (watchOp fuel s k cb true).1 =
      { s with watchers := alSet s.watchers k (reg s k ++ [⟨s.nextId, cb⟩]),
               nextId := s.nextId + 1 } := by
  rw [watchOp]
  set s1 : WatchMap K V :=
    { s with watchers := alSet s.watchers k (reg s k ++ [⟨s.nextId, cb⟩]),
             nextId := s.nextId + 1 } with hs1
  have hb : alGet s1.base k = none := h
  simp only [if_true, hb]

/-- Unfolding `watch` with `always` on a present key: the record is appended,
then the callback is immediately invoked with
`(currentValue, previousShadow, unwatch)`. -/
theorem watchOp_true_some (fuel : Nat) (s : WatchMap K V) (k : K)
    (cb : Behavior K V) (v : V) (h : alGet s.base k = some v) :
    (watchOp fuel s k (some cb) true).1 =
      callN fuel
        { s with watchers := alSet s.watchers k (reg s k ++ [⟨s.nextId, some cb⟩]),
                 nextId := s.nextId + 1,
                 log := s.log ++ [.invoke s.nextId v (prevShadow s k)] }
        (cb v (prevShadow s k) (some (k, s.nextId))) := by
  rw [watchOp]
  set s1 : WatchMap K V :=
    { s with watchers := alSet s.watchers k (reg s k ++ [⟨s.nextId, some cb⟩]),
             nextId := s.nextId + 1 } with hs1
  have hb : alGet s1.base k = some v := h
  simp only [if_true, hb]
  rfl

theorem invokesOfId_append (i : Nat) (l1 l2 : List (Event K V)) :
    invokesOfId i (l1 ++ l2) = invokesOfId i l1 ++ invokesOfId i l2 := by
  rw [invokesOfId, invokesOf_append, List.filterMap_append]
  rfl

theorem filterId_map_ne (i : Nat) (v : V) (old : Option V)
    (L : List (Watcher K V)) (h : ∀ w ∈ L, w.id ≠ i) :
    (L.map (fun w => (w.id, v, old))).filterMap
      (fun e => if e.1 = i then some e.2 else none) = [] := by
  induction L with
  | nil => rfl
  | cons w rest ih =>
    rw [List.map_cons, List.filterMap_cons]
    have : w.id ≠ i := h w (List.mem_cons_self w rest)
    simp only [if_neg this]
    exact ih (fun x hx => h x (List.mem_cons_of_mem w hx))

/-- C3 — during `set(k, v)`, all watcher callbacks for `k` run before `v` is
committed: as long as no callback (of any key) writes `k` reentrantly, every
read of `k` a callback performs while the `set` is in progress observes the
value (or absence) `k` held before the `set`. -/
theorem c3_fire_before_commit (fuel : Nat) (s : WatchMap K V) (k : K)
    (v : V) (hS : StateAvoids s k) :
    ∀ x, Event.observed k x ∈ (setOp fuel s k v).log →
      Event.observed k x ∈ s.log ∨ x = alGet s.base k := by
  intro x hx
  rw [setOp, doSetL] at hx
  by_cases he : s.err = true
  · rw [if_pos he] at hx
    exact Or.inl hx
  · rw [if_neg he] at hx
    set s1 : WatchMap K V := { s with prev := alSet s.prev k (alGet s.base k) }
      with hs1
    have h0 : ProbeInv k (alGet s.base k) s.log s1 :=
      ⟨rfl, hS, fun y hy => Or.inl hy⟩
    have h1 := fireL_avoid k (alGet s.base k) s.log (callN fuel)
      (callN_avoid k (alGet s.base k) s.log fuel) (reg s1 k) s1 v
      (alGet s1.base k) (fun w hw b hb => hS k w b hw hb) h0
    by_cases he2 :
        (fireL (callN fuel) s1 (reg s1 k) v (alGet s1.base k)).err = true
    · rw [if_pos he2] at hx
      exact h1.2.2 x hx
    · rw [if_neg he2] at hx
      exact h1.2.2 x hx

/-- C5 — cancellation is immediate and passes neither skip nor double-fire:
(1) unwatching an id that is registered only on its own key retires it;
(2) a retired id is never invoked by any callback body, however reentrant;
(3) nor by any later top-level operation;
(4) and a `set` pass over callable, benign watchers invokes each snapshot
record exactly once, in order, with the event's arguments. -/
theorem c5_cancel_mid_pass :
    (∀ (s : WatchMap K V) (k : K) (i : Nat), i < s.nextId →
      (∀ j w, w ∈ reg s j → w.id = i → j = k) →
      idFree (cancelOp s k i) i) ∧
    (∀ (fuel : Nat) (c : Cmd K V) (s : WatchMap K V) (i : Nat), idFree s i →
      invCount i (callN fuel s c).log = invCount i s.log ∧
      idFree (callN fuel s c) i) ∧
    (∀ (fuel : Nat) (ops : List (Op K V)) (s : WatchMap K V) (i : Nat),
      idFree s i →
      invCount i (runOps fuel s ops).log = invCount i s.log ∧
      idFree (runOps fuel s ops) i) ∧
    (∀ (m : Nat) (s : WatchMap K V) (k : K) (v : V), s.err = false →
      (∀ w ∈ reg s k, ∃ b, w.callback = some b ∧ BBenign b) →
      invokesOf (setOp (m + 1) s k v).log =
        invokesOf s.log ++ (reg s k).map (fun w => (w.id, v, alGet s.base k))) := by
  refine ⟨?_, ?_, ?_, ?_⟩
  · intro s k i hlt honly
    refine ⟨?_, by rw [cancelOp_nextId]; exact hlt⟩
    intro j w hw
    rw [reg_cancelOp] at hw
    by_cases hj : j = k
    · rw [if_pos hj] at hw
      have := List.mem_filter.1 hw
      simpa using this.2
    · rw [if_neg hj] at hw
      exact fun hi => hj (honly j w hw hi)
  · intro fuel c s i hf
    have := callN_free i fuel s c hf
    exact ⟨this.2, this.1⟩
  · intro fuel ops s i hf
    have := runOps_free i fuel ops s hf
    exact ⟨this.2, this.1⟩
  · intro m s k v he hw
    exact (setOp_invokes m s k v he hw).2.1

/-- C6 — `watch(k, cb)` then `set(k, v1)` then `set(k, v2)` from a map where
`k` is absent invokes `cb` exactly twice: first with `(v1, undefined)`, then
with `(v2, v1)` — provided the callbacks on `k` only read (the source fires
on every `set`, so `v1 ≠ v2` is not even needed). -/
theorem c6_watch_set_set (m : Nat) (s : WatchMap K V) (k : K) (v1 v2 : V)
    (cb : Behavior K V) (hne : v1 ≠ v2) (herr : s.err = false)
    (hbase : alGet s.base k = none)
    (hbound : ∀ w ∈ reg s k, w.id < s.nextId)
    (hinert : ∀ w ∈ reg s k, ∃ b, w.callback = some b ∧ BInert b)
    (hcb : BInert cb) :
    invokesOfId s.nextId
      (setOp (m + 1) (setOp (m + 1) (watchOp (m + 1) s k (some cb) false).1
        k v1) k v2).log
      = invokesOfId s.nextId s.log ++ [(v1, none), (v2, some v1)] := by
  rw [watchOp_false]
  set i := s.nextId with hidef
  set s1 : WatchMap K V :=
    { s with watchers := alSet s.watchers k (reg s k ++ [⟨i, some cb⟩]),
             nextId := i + 1 } with hs1
  have hreg1 : ∀ j, reg s1 j =
      if j = k then reg s k ++ [⟨i, some cb⟩] else reg s j :=
    reg_watchAdd s k (some cb)
  have hreg1k : reg s1 k = reg s k ++ [⟨i, some cb⟩] := by
    rw [hreg1 k, if_pos rfl]
  have herr1 : s1.err = false := herr
  have hb1 : alGet s1.base k = none := hbase
  have hben1 : ∀ w ∈ reg s1 k, ∃ b, w.callback = some b ∧ BBenign b := by
    intro w hw
    rw [hreg1k] at hw
    rcases List.mem_append.1 hw with hw | hw
    · obtain ⟨b, h1, h2⟩ := hinert w hw
      exact ⟨b, h1, BBenign.of_inert h2⟩
    · rw [List.mem_singleton.1 hw]
      exact ⟨cb, rfl, BBenign.of_inert hcb⟩
  have hin1 : ∀ w ∈ reg s1 k, ∃ b, w.callback = some b ∧ BInert b := by
    intro w hw
    rw [hreg1k] at hw
    rcases List.mem_append.1 hw with hw | hw
    · exact hinert w hw
    · rw [List.mem_singleton.1 hw]
      exact ⟨cb, rfl, hcb⟩
  have hA := setOp_invokes m s1 k v1 herr1 hben1
  have hW := setOp_watchers_inert m s1 k v1 herr1 hin1
  set s2 := setOp (m + 1) s1 k v1 with hs2
  have hreg2k : reg s2 k = reg s1 k := reg_congr hW k
  have hben2 : ∀ w ∈ reg s2 k, ∃ b, w.callback = some b ∧ BBenign b := by
    rw [hreg2k]; exact hben1
  have hB := setOp_invokes m s2 k v2 hA.1 hben2
  have hlog1 : invokesOf s1.log = invokesOf s.log := rfl
  have hfilter : ∀ (L : List (Watcher K V)) (v : V) (old : Option V),
      (∀ w ∈ L, w.id < i) →
      ((L ++ [(⟨i, some cb⟩ : Watcher K V)]).map
          (fun w : Watcher K V => (w.id, v, old))).filterMap
        (fun e : Nat × V × Option V => if e.1 = i then some e.2 else none)
        = [(v, old)] := by
    intro L v old hL
    rw [List.map_append, List.filterMap_append,
      filterId_map_ne i v old L (fun w hw => Nat.ne_of_lt (hL w hw)),
      List.nil_append]
    simp [List.filterMap_cons]
  rw [invokesOfId, hB.2.1, List.filterMap_append, hA.2.1,
    List.filterMap_append, hlog1]
  rw [hreg2k, hreg1k, hb1]
  rw [hfilter (reg s k) v1 none hbound,
    hfilter (reg s k) v2 (alGet s2.base k) hbound, hA.2.2.1]
  rw [invokesOfId, List.append_assoc]
  rfl

/-- C7 — `watch(k, cb, {always: true})` when `k` holds `v` invokes `cb`
exactly once, immediately, with `(v, previousShadowValueOrUndefined)` (the
third `unwatch` argument elided from the event); when `k` is absent, or when
`always` is absent or false, registration invokes nothing at all. -/
theorem c7_always_immediate_fire (fuel : Nat) (s : WatchMap K V) (k : K)
    (cb : Behavior K V) :
    (∀ v, alGet s.base k = some v → BCalm cb →
      invokesOf (watchOp fuel s k (some cb) true).1.log =
        invokesOf s.log ++ [(s.nextId, v, prevShadow s k)]) ∧
    (alGet s.base k = none → ∀ alw,
      (watchOp fuel s k (some cb) alw).1.log = s.log) ∧
    (watchOp fuel s k (some cb) false).1.log = s.log := by
  refine ⟨?_, ?_, ?_⟩
  · intro v hv hc
    rw [watchOp_true_some fuel s k cb v hv]
    set s2 : WatchMap K V :=
      { s with watchers := alSet s.watchers k (reg s k ++ [⟨s.nextId, some cb⟩]),
               nextId := s.nextId + 1,
               log := s.log ++ [.invoke s.nextId v (prevShadow s k)] } with hs2
    have hcall := calm_callN fuel (cb v (prevShadow s k) (some (k, s.nextId)))
      s2 (hc v (prevShadow s k) (some (k, s.nextId)))
    rw [hcall.1]
    show invokesOf (s.log ++ [.invoke s.nextId v (prevShadow s k)]) = _
    rw [invokesOf_append]
    rfl
  · intro hv alw
    cases alw
    · rw [watchOp_false]
    · rw [watchOp_true_none fuel s k (some cb) hv]
  · rw [watchOp_false]

/-- C10 — `delete(k)` leaves the whole watcher registry untouched (every
key's count included) and fires nothing; the watchers previously registered
on `k` stay active: a subsequent `set(k, v)` fires each of them exactly
once, with `(v, undefined)` since the entry was removed. -/
theorem c10_delete_preserves_watchers (s : WatchMap K V) (k : K) :
    (deleteOp s k).1.watchers = s.watchers ∧
    (∀ j, countWatchers (deleteOp s k).1 j = countWatchers s j) ∧
    (deleteOp s k).1.log = s.log ∧
    (∀ (m : Nat) (v : V), s.err = false →
      (∀ w ∈ reg s k, ∃ b, w.callback = some b ∧ BBenign b) →
      invokesOf (setOp (m + 1) (deleteOp s k).1 k v).log =
        invokesOf s.log ++ (reg s k).map (fun w => (w.id, v, none))) := by
  refine ⟨rfl, fun j => rfl, rfl, ?_⟩
  intro m v he hw
  have hbase : alGet (deleteOp s k).1.base k = none := by
    show alGet (alDelete s.base k) k = none
    exact alGet_alDelete_self s.base k
  have hregd : ∀ j, reg (deleteOp s k).1 j = reg s j := reg_congr rfl
  have := setOp_invokes m (deleteOp s k).1 k v he (by rw [hregd k]; exact hw)
  rw [this.2.1, hregd k, hbase]
  rfl

theorem length_filter_ne (i : Nat) (L : List (Watcher K V)) :
    (L.filter (fun w => w.id ≠ i)).length =
      L.length - List.countP (fun w => w.id = i) L := by
  induction L with
  | nil => rfl
  | cons w rest ih =>
    have hle : List.countP (fun w : Watcher K V => w.id = i) rest ≤ rest.length :=
      List.countP_le_length _
    rw [List.filter_cons, List.countP_cons]
    by_cases h : w.id = i
    · rw [if_neg (by simp [h]), if_pos (by simp [h]), ih]
      simp only [List.length_cons]
      omega
    · rw [if_pos (by simp [h]), if_neg (by simp [h])]
      simp only [List.length_cons, ih]
      omega

/-- C8 (amended) — `countWatchers` exactness: zero on a fresh map; `watch`
and `once` each add exactly one record when they do not immediately fire
(always absent, false, or the key unset); cancelling a uniquely-registered
active watcher removes exactly one record; registrations and cancellations
on other keys change nothing.  (A `once` whose `always` option fires
immediately retires its own record in the same call, leaving the count
unchanged — see the counterexample.) -/
theorem c8_count_watchers_exact :
    (∀ k : K, countWatchers (WatchMap.empty K V) k = 0) ∧
    (∀ (fuel : Nat) (s : WatchMap K V) (k : K) (cb : Option (Behavior K V))
       (alw : Bool), (alw = true → alGet s.base k = none) →
       countWatchers (watchOp fuel s k cb alw).1 k = countWatchers s k + 1) ∧
    (∀ (fuel : Nat) (s : WatchMap K V) (k : K)
       (cb : Option (V → Option V → Cmd K V)) (alw : Bool),
       (alw = true → alGet s.base k = none) →
       countWatchers (onceOp fuel s k cb alw).1 k = countWatchers s k + 1) ∧
    (∀ (s : WatchMap K V) (k : K) (i : Nat),
       List.countP (fun w => w.id = i) (reg s k) = 1 →
       countWatchers (cancelOp s k i) k = countWatchers s k - 1) ∧
    (∀ (fuel : Nat) (s : WatchMap K V) (k2 j : K) (cb : Option (Behavior K V)),
       j ≠ k2 →
       countWatchers (watchOp fuel s k2 cb false).1 j = countWatchers s j) ∧
    (∀ (s : WatchMap K V) (k2 j : K) (i : Nat), j ≠ k2 →
       countWatchers (cancelOp s k2 i) j = countWatchers s j) := by
  have hwatch : ∀ (fuel : Nat) (s : WatchMap K V) (k : K)
      (cb : Option (Behavior K V)) (alw : Bool),
      (alw = true → alGet s.base k = none) →
      countWatchers (watchOp fuel s k cb alw).1 k = countWatchers s k + 1 := by
    intro fuel s k cb alw halw
    have hone : ∀ (t : WatchMap K V), t =
        { s with watchers := alSet s.watchers k (reg s k ++ [⟨s.nextId, cb⟩]),
                 nextId := s.nextId + 1 } →
        countWatchers t k = countWatchers s k + 1 := by
      intro t ht
      rw [countWatchers, ht, reg_watchAdd s k cb k, if_pos rfl,
        List.length_append]
      rfl
    cases alw with
    | false => exact hone _ (watchOp_false fuel s k cb)
    | true => exact hone _ (watchOp_true_none fuel s k cb (halw rfl))
  refine ⟨fun k => rfl, hwatch, ?_, ?_, ?_, ?_⟩
  · intro fuel s k cb alw halw
    exact hwatch fuel s k (some (onceWrapper k s.nextId cb)) alw halw
  · intro s k i hcnt
    rw [countWatchers, countWatchers, reg_cancelOp, if_pos rfl,
      length_filter_ne, hcnt]
  · intro fuel s k2 j cb hj
    rw [countWatchers, watchOp_false, reg_watchAdd s k2 cb j, if_neg hj]
    rfl
  · intro s k2 j i hj
    rw [countWatchers, reg_cancelOp, if_neg hj]
    rfl

/-- C9 (amended) — neither `watch` nor `once` validates its callback: a
non-callable callback is registered silently (no error, no event, count goes
up by one), and the failure surfaces only later, as a thrown `TypeError`,
when the watcher first fires during a `set`. -/
theorem c9_no_callback_validation (fw fs m : Nat) (s : WatchMap K V) (k : K)
    (alw : Bool) (v : V) (he : s.err = false) (hreg : reg s k = [])
    (hnf : alw = true → alGet s.base k = none) :
    ((watchOp fw s k none alw).1.err = false ∧
     (watchOp fw s k none alw).1.log = s.log ∧
     countWatchers (watchOp fw s k none alw).1 k = countWatchers s k + 1 ∧
     (setOp fs (watchOp fw s k none alw).1 k v).err = true ∧
     Event.typeError ∈ (setOp fs (watchOp fw s k none alw).1 k v).log) ∧
    ((onceOp fw s k none alw).1.err = false ∧
     (onceOp fw s k none alw).1.log = s.log ∧
     countWatchers (onceOp fw s k none alw).1 k = countWatchers s k + 1 ∧
     (setOp (m + 1) (onceOp fw s k none alw).1 k v).err = true ∧
     Event.typeError ∈ (setOp (m + 1) (onceOp fw s k none alw).1 k v).log) := by
  set i := s.nextId with hi
  have hcnt : ∀ (cb : Option (Behavior K V)),
      (alw = true → alGet s.base k = none) →
      countWatchers (watchOp fw s k cb alw).1 k = countWatchers s k + 1 := by
    intro cb halw
    have hone : ∀ (t : WatchMap K V), t =
        { s with watchers := alSet s.watchers k (reg s k ++ [⟨i, cb⟩]),
                 nextId := i + 1 } →
        countWatchers t k = countWatchers s k + 1 := by
      intro t ht
      rw [countWatchers, ht, reg_watchAdd s k cb k, if_pos rfl,
        List.length_append]
      rfl
    cases alw with
    | false => exact hone _ (watchOp_false fw s k cb)
    | true => exact hone _ (watchOp_true_none fw s k cb (halw rfl))
  have hform : ∀ (cb : Option (Behavior K V)), (watchOp fw s k cb alw).1 =
      { s with watchers := alSet s.watchers k (reg s k ++ [⟨i, cb⟩]),
               nextId := i + 1 } := by
    intro cb
    cases alw with
    | false => exact watchOp_false fw s k cb
    | true => exact watchOp_true_none fw s k cb (hnf rfl)
  constructor
  · -- `watch` with a non-callable callback
    rw [hform none]
    set s1 : WatchMap K V :=
      { s with watchers := alSet s.watchers k (reg s k ++ [⟨i, none⟩]),
               nextId := i + 1 } with hs1
    have he1 : s1.err = false := he
    have hregs1 : reg s1 k = [⟨i, (none : Option (Behavior K V))⟩] := by
      rw [reg_watchAdd s k none k, if_pos rfl, hreg]
      rfl
    refine ⟨he1, rfl, by have := hcnt none hnf; rwa [hform none] at this, ?_⟩
    rw [setOp, doSetL, if_neg (by rw [he1]; simp)]

    set s1p : WatchMap K V := { s1 with prev := alSet s1.prev k (alGet s1.base k) }
      with hs1p
    have hregs1p : reg s1p k = [⟨i, (none : Option (Behavior K V))⟩] := hregs1
    have he1p : s1p.err = false := he
    have hfire : fireL (callN fs) s1p (reg s1p k) v (alGet s1p.base k) =
        mkErr s1p := by
      rw [hregs1p, fireL, if_neg (by rw [he1p]; simp)]
      show fireL (callN fs) (mkErr s1p) [] v (alGet s1p.base k) = mkErr s1p
      rw [fireL]
    simp only [hfire]
    exact ⟨rfl, List.mem_append.2 (Or.inr (List.mem_singleton.2 rfl))⟩
  · -- `once` with a non-callable callback: the wrapper itself is callable,
    -- so it fires, and throws when it invokes the wrapped value
    rw [onceOp, hform (some (onceWrapper k i none))]
    set cbW : Option (Behavior K V) := some (onceWrapper k i none) with hcbW
    set s1 : WatchMap K V :=
      { s with watchers := alSet s.watchers k (reg s k ++ [⟨i, cbW⟩]),
               nextId := i + 1 } with hs1
    have he1 : s1.err = false := he
    have hregs1 : reg s1 k = [⟨i, cbW⟩] := by
      rw [reg_watchAdd s k cbW k, if_pos rfl, hreg]
      rfl
    refine ⟨he1, rfl, by
      have := hcnt (some (onceWrapper k i none)) hnf
      rwa [hform (some (onceWrapper k i none))] at this, ?_⟩
    rw [setOp, doSetL, if_neg (by rw [he1]; simp)]
    set s1p : WatchMap K V := { s1 with prev := alSet s1.prev k (alGet s1.base k) }
      with hs1p
    have hregs1p : reg s1p k = [⟨i, cbW⟩] := hregs1
    have he1p : s1p.err = false := he
    set old := alGet s1p.base k with hold
    set s2 : WatchMap K V := { s1p with log := s1p.log ++ [.invoke i v old] }
      with hs2
    have he2 : s2.err = false := he
    have hwrap : callN (m + 1) s2 (onceWrapper k i none v old none) =
        mkErr s2 := by
      show callN (m + 1) s2 Cmd.throwTE = mkErr s2
      rw [callN, runCmdL, if_neg (by rw [he2]; simp)]
    have hfire : fireL (callN (m + 1)) s1p (reg s1p k) v old = mkErr s2 := by
      rw [hregs1p, fireL, if_neg (by rw [he1p]; simp)]
      show fireL (callN (m + 1))
        (callN (m + 1) s2 (onceWrapper k i none v old none)) [] v old = mkErr s2
      rw [hwrap, fireL]
    simp only [hfire]
    refine ⟨rfl, ?_⟩
    show Event.typeError ∈ s2.log ++ [Event.typeError]
    exact List.mem_append.2 (Or.inr (List.mem_singleton.2 rfl))

/-- C4 (amended) — a `once(k, cb)` callback fires at most once across any
sequence of top-level operations, whether the first firing is the immediate
`always` one or change-driven, provided no callback reentrantly writes the
map during a firing pass (reentrant writes can double-deliver from a
snapshot already in progress — see the counterexample). -/
theorem c4_once_at_most_once (f1 f2 : Nat) (s : WatchMap K V) (k : K)
    (cb : V → Option V → Cmd K V) (alw : Bool) (ops : List (Op K V))
    (hS : StateCalm s)
    (hbound : ∀ j w, w ∈ reg s j → w.id < s.nextId)
    (hlog : invCount s.nextId s.log = 0)
    (hcb : ∀ v ov, (cb v ov).calm = true)
    (hops : ∀ op ∈ ops, CalmOp op) :
    invCount (onceOp f1 s k (some cb) alw).2.2
      (runOps f2 (onceOp f1 s k (some cb) alw).1 ops).log ≤ 1 := by
  have h0 := onceOp_establish s k cb alw f1 hS hbound hlog hcb
  have h1 := runOps_c4 k s.nextId cb hcb f2 ops
    (onceOp f1 s k (some cb) alw).1 hops h0
  exact C4Inv.count_le h1

/-! ### Membership facts about the concrete instances -/

theorem mem_reg_oneWatcher {j : Nat} {w : Watcher Nat Int}
    (hw : w ∈ reg oneWatcherState j) : j = 0 ∧ w = ⟨0, some retB⟩ := by
  by_cases hj : j = 0
  · subst hj
    refine ⟨rfl, ?_⟩
    simpa [reg, oneWatcherState, alGet] using hw
  · exfalso
    simp [reg, oneWatcherState, alGet, hj] at hw

theorem mem_reg_probeState {j : Nat} {w : Watcher Nat Int}
    (hw : w ∈ reg probeState j) : j = 0 ∧ w = ⟨0, some probeB⟩ := by
  by_cases hj : j = 0
  · subst hj
    refine ⟨rfl, ?_⟩
    simpa [reg, probeState, alGet] using hw
  · exfalso
    simp [reg, probeState, alGet, hj] at hw

/-! ### Claim-level concrete theorems -/

/-- C1 — the source fires watchers on **every** `set`, even when the new
value strictly equals the stored one: after `watch(0, cb)`, the calls
`set(0, 5); set(0, 5)` invoke the watcher twice, the second time with
`value = oldValue = 5`.  This contradicts the fire-on-change claim (and the
repository's own test "Set watchers should only fire when watched value
changes"). -/
theorem c1_redundant_set_fires_watchers :
    invokesOf (runOps 5 (WatchMap.empty Nat Int)
      [.watch 0 (some retB) false, .set 0 5, .set 0 5]).log =
      [(0, 5, none), (0, 5, some 5)] ∧
    (runOps 5 (WatchMap.empty Nat Int)
      [.watch 0 (some retB) false, .set 0 5, .set 0 5]).err = false := by
  decide

/-- C2 — `delete` never fires any watcher: with `0 ↦ 2` watched, `delete(0)`
returns true but appends no invocation (the claim requires a
`(undefined, 2)` invocation), and `delete` of the now-absent key returns
false, likewise firing nothing.  This contradicts the source’s own jsdoc
("changed via set()/delete()") and the README. -/
theorem c2_delete_fires_no_watchers :
    alGet c2state.base 0 = some 2 ∧
    countWatchers c2state 0 = 1 ∧
    (deleteOp c2state 0).2 = true ∧
    (deleteOp c2state 0).1.log = c2state.log ∧
    (deleteOp (deleteOp c2state 0).1 0).2 = false ∧
    (deleteOp (deleteOp c2state 0).1 0).1.log = c2state.log := by
  decide

/-- C4 (counterexample) — with a watcher registered before `once` that
reentrantly sets the key, a single `set(0, 1)` delivers the one-shot
callback **twice** (ids: watcher 0, once-wrapper 1): the nested pass fires
and retires it, but the outer pass, iterating the old snapshot, fires it
again.  The claim "cb is invoked at most once in total" is therefore false
as stated. -/
theorem c4_counterexample_reentrant :
    invCount 1 (runOps 5 (WatchMap.empty Nat Int)
      [.watch 0 (some reentB) false, .once 0 (some retC) false,
        .set 0 1]).log = 2 ∧
    (runOps 5 (WatchMap.empty Nat Int)
      [.watch 0 (some reentB) false, .once 0 (some retC) false,
        .set 0 1]).err = false := by
  decide

/-- C8 (counterexample) — `once(0, cb, {always: true})` on a map where key 0
is already set fires immediately and retires itself inside the same call:
`countWatchers(0)` is 0 both before and after, not incremented by one as the
claim states. -/
theorem c8_counterexample_once_always :
    countWatchers c8state 0 = 0 ∧
    alGet c8state.base 0 = some 1 ∧
    countWatchers (onceOp 5 c8state 0 (some retC) true).1 0 = 0 ∧
    (onceOp 5 c8state 0 (some retC) true).1.err = false := by
  decide

/-- C9 (counterexample) — `watch(0, nonCallable)` does **not** fail at the
call site: the registration is accepted (no error, watcher count 1), and
the `TypeError` is thrown only later, when `set(0, 7)` tries to fire the
watcher. -/
theorem c9_counterexample_non_callable :
    (watchOp 5 (WatchMap.empty Nat Int) 0 none false).1.err = false ∧
    countWatchers (watchOp 5 (WatchMap.empty Nat Int) 0 none false).1 0 = 1 ∧
    (setOp 5 (watchOp 5 (WatchMap.empty Nat Int) 0 none false).1 0 7).err
      = true ∧
    Event.typeError ∈
      (setOp 5 (watchOp 5 (WatchMap.empty Nat Int) 0 none false).1 0 7).log := by
  decide

/-! ### Witnesses -/

/-- Witness for C3: with `0 ↦ 10` and a watcher that reads key 0,
`set(0, 11)` lets the callback observe 10 (the pre-update value), and only
afterwards commits 11. -/
theorem c3_witness :
    Event.observed 0 (some 10) ∈ (setOp 5 probeState 0 11).log ∧
    alGet (setOp 5 probeState 0 11).base 0 = some 11 ∧
    (Event.observed (0 : Nat) (some (10 : Int)) ∈ probeState.log ∨
      (some (10 : Int)) = alGet probeState.base 0) := by
  have hS : StateAvoids probeState 0 := by
    intro j w b hw hb
    obtain ⟨hj, hw2⟩ := mem_reg_probeState hw
    rw [hw2] at hb
    have hbb : b = probeB := (Option.some.inj hb).symm
    rw [hbb]
    intro v ov tok
    rfl
  exact ⟨by decide, by decide,
    c3_fire_before_commit 5 probeState 0 11 hS (some 10) (by decide)⟩

/-- Witness for C4 (amended): a `once` on the empty map followed by two
`set`s and a `delete` yields at most one invocation of the one-shot
callback. -/
theorem c4_witness :
    invCount (onceOp 5 (WatchMap.empty Nat Int) 0 (some retC) false).2.2
      (runOps 5 (onceOp 5 (WatchMap.empty Nat Int) 0 (some retC) false).1
        [.set 0 5, .set 0 6, .del 0]).log ≤ 1 := by
  refine c4_once_at_most_once 5 5 (WatchMap.empty Nat Int) 0 retC false
    [.set 0 5, .set 0 6, .del 0] ?_ ?_ rfl (fun v ov => rfl) ?_
  · intro j w b hw hb
    exact absurd hw (List.not_mem_nil w)
  · intro j w hw
    exact absurd hw (List.not_mem_nil w)
  · intro op hop
    simp only [List.mem_cons, List.not_mem_nil, or_false] at hop
    rcases hop with rfl | rfl | rfl <;> trivial

/-- Witness for C5: cancelling the only watcher (id 0) retires it; no
callback body and no later operation ever invokes id 0 again; and a pass
over the registered benign watcher fires it exactly once with the event's
arguments. -/
theorem c5_witness :
    idFree (cancelOp oneWatcherState 0 0) 0 ∧
    invCount 0 (callN 5 (cancelOp oneWatcherState 0 0)
      (Cmd.set 0 3 Cmd.ret)).log = invCount 0 (cancelOp oneWatcherState 0 0).log ∧
    invCount 0 (runOps 5 (cancelOp oneWatcherState 0 0) [Op.set 0 7]).log =
      invCount 0 (cancelOp oneWatcherState 0 0).log ∧
    invokesOf (setOp 5 oneWatcherState 0 9).log =
      invokesOf oneWatcherState.log ++
        (reg oneWatcherState 0).map
          (fun w => (w.id, 9, alGet oneWatcherState.base 0)) := by
  have honly : ∀ j w, w ∈ reg oneWatcherState j → w.id = 0 → j = 0 :=
    fun j w hw _ => (mem_reg_oneWatcher hw).1
  have hben : ∀ w ∈ reg oneWatcherState 0,
      ∃ b, w.callback = some b ∧ BBenign b := by
    intro w hw
    refine ⟨retB, ?_, fun v ov tok => rfl⟩
    rw [(mem_reg_oneWatcher hw).2]
  have h1 := c5_cancel_mid_pass.1 oneWatcherState 0 0 (by decide) honly
  exact ⟨h1, (c5_cancel_mid_pass.2.1 5 (Cmd.set 0 3 Cmd.ret) _ 0 h1).1,
    (c5_cancel_mid_pass.2.2.1 5 [Op.set 0 7] _ 0 h1).1,
    c5_cancel_mid_pass.2.2.2 4 oneWatcherState 0 9 (by decide) hben⟩

/-- Witness for C6: `watch(0, cb)` then `set(0, 1)` then `set(0, 2)` on the
empty map invokes the callback exactly twice, with `(1, undefined)` then
`(2, 1)`. -/
theorem c6_witness :
    invokesOfId (WatchMap.empty Nat Int).nextId
      (setOp 5 (setOp 5 (watchOp 5 (WatchMap.empty Nat Int) 0
        (some retB) false).1 0 1) 0 2).log =
      invokesOfId (WatchMap.empty Nat Int).nextId
        (WatchMap.empty Nat Int).log ++ [(1, none), (2, some 1)] := by
  refine c6_watch_set_set 4 (WatchMap.empty Nat Int) 0 1 2 retB (by decide)
    rfl rfl ?_ ?_ (fun v ov tok => rfl)
  · intro w hw
    exact absurd hw (List.not_mem_nil w)
  · intro w hw
    exact absurd hw (List.not_mem_nil w)

/-- Witness for C7: on `0 ↦ 4` with shadow 3, `watch(0, cb, {always: true})`
fires once immediately with `(4, 3)`; with `always` on an unset key, or
without `always`, nothing fires. -/
theorem c7_witness :
    invokesOf (watchOp 5 c7state 0 (some retB) true).1.log =
      invokesOf c7state.log ++ [(c7state.nextId, 4, prevShadow c7state 0)] ∧
    (watchOp 5 (WatchMap.empty Nat Int) 0 (some retB) true).1.log = [] ∧
    (watchOp 5 c7state 0 (some retB) false).1.log = c7state.log := by
  refine ⟨(c7_always_immediate_fire 5 c7state 0 retB).1 4 (by decide)
    (fun v ov tok => rfl), ?_,
    (c7_always_immediate_fire 5 c7state 0 retB).2.2⟩
  exact (c7_always_immediate_fire 5 (WatchMap.empty Nat Int) 0 retB).2.1
    rfl true

/-- Witness for C8 (amended): counts on the empty map, after `watch`, after
`once`, after an unwatch of a uniquely-registered id, and across operations
on a different key. -/
theorem c8_witness :
    countWatchers (WatchMap.empty Nat Int) 0 = 0 ∧
    countWatchers (watchOp 5 (WatchMap.empty Nat Int) 0 (some retB) false).1 0
      = countWatchers (WatchMap.empty Nat Int) 0 + 1 ∧
    countWatchers (onceOp 5 (WatchMap.empty Nat Int) 0 (some retC) false).1 0
      = countWatchers (WatchMap.empty Nat Int) 0 + 1 ∧
    countWatchers (cancelOp oneWatcherState 0 0) 0 =
      countWatchers oneWatcherState 0 - 1 ∧
    countWatchers (watchOp 5 (WatchMap.empty Nat Int) 1 (some retB) false).1 0
      = countWatchers (WatchMap.empty Nat Int) 0 ∧
    countWatchers (cancelOp oneWatcherState 1 0) 0 =
      countWatchers oneWatcherState 0 := by
  refine ⟨c8_count_watchers_exact.1 0,
    c8_count_watchers_exact.2.1 5 (WatchMap.empty Nat Int) 0 (some retB)
      false (fun h => nomatch h),
    c8_count_watchers_exact.2.2.1 5 (WatchMap.empty Nat Int) 0 (some retC)
      false (fun h => nomatch h),
    c8_count_watchers_exact.2.2.2.1 oneWatcherState 0 0 (by decide),
    c8_count_watchers_exact.2.2.2.2.1 5 (WatchMap.empty Nat Int) 1 0
      (some retB) (by decide),
    c8_count_watchers_exact.2.2.2.2.2 oneWatcherState 1 0 0 (by decide)⟩

/-- Witness for C9 (amended): on the empty map, registering the non-callable
callback succeeds silently through both `watch` and `once`, and the
`TypeError` surfaces at the subsequent `set(0, 7)`. -/
theorem c9_witness :
    ((watchOp 5 (WatchMap.empty Nat Int) 0 none false).1.err = false ∧
     (watchOp 5 (WatchMap.empty Nat Int) 0 none false).1.log =
       (WatchMap.empty Nat Int).log ∧
     countWatchers (watchOp 5 (WatchMap.empty Nat Int) 0 none false).1 0 =
       countWatchers (WatchMap.empty Nat Int) 0 + 1 ∧
     (setOp 5 (watchOp 5 (WatchMap.empty Nat Int) 0 none false).1 0 7).err
       = true ∧
     Event.typeError ∈
       (setOp 5 (watchOp 5 (WatchMap.empty Nat Int) 0 none false).1 0 7).log) ∧
    ((onceOp 5 (WatchMap.empty Nat Int) 0 none false).1.err = false ∧
     (onceOp 5 (WatchMap.empty Nat Int) 0 none false).1.log =
       (WatchMap.empty Nat Int).log ∧
     countWatchers (onceOp 5 (WatchMap.empty Nat Int) 0 none false).1 0 =
       countWatchers (WatchMap.empty Nat Int) 0 + 1 ∧
     (setOp (4 + 1) (onceOp 5 (WatchMap.empty Nat Int) 0 none false).1 0 7).err
       = true ∧
     Event.typeError ∈
       (setOp (4 + 1) (onceOp 5 (WatchMap.empty Nat Int) 0 none false).1
         0 7).log) :=
  c9_no_callback_validation 5 5 4 (WatchMap.empty Nat Int) 0 false 7 rfl rfl
    (fun h => nomatch h)

/-- Witness for C10: deleting key 0 under one watcher leaves the registry
and count unchanged, and a subsequent `set(0, 9)` still fires the watcher,
with `(9, undefined)`. -/
theorem c10_witness :
    (deleteOp oneWatcherState 0).1.watchers = oneWatcherState.watchers ∧
    countWatchers (deleteOp oneWatcherState 0).1 0 =
      countWatchers oneWatcherState 0 ∧
    invokesOf (setOp 5 (deleteOp oneWatcherState 0).1 0 9).log =
      invokesOf oneWatcherState.log ++
        (reg oneWatcherState 0).map (fun w => (w.id, 9, none)) := by
  have hben : ∀ w ∈ reg oneWatcherState 0,
      ∃ b, w.callback = some b ∧ BBenign b := by
    intro w hw
    refine ⟨retB, ?_, fun v ov tok => rfl⟩
    rw [(mem_reg_oneWatcher hw).2]
  have h := c10_delete_preserves_watchers oneWatcherState 0
  exact ⟨h.1, h.2.1 0, h.2.2.2 4 9 rfl hben⟩

end MapWatch
